import Mathlib

/-!
# Verification of the TACS distributed block-sparse matrix core

A shallow embedding of the parallel block-CSR matrix (`PMat`), its
preconditioners (`PSOR`, `AdditiveSchwarz`, `ApproximateSchur`,
`GlobalSchurMat`) and the 2x2 block-CSR numeric kernels
(`BCSRMatMult2.c`), together with proofs about them.

Scalars (`TacsScalar`) are modelled as rationals; a 2x2 block is a
function `Fin 2 → Fin 2 → ℚ` laid out row-major, so that the flat
array entries `a[0], a[1], a[2], a[3]` of the C kernels correspond to
`b 0 0, b 0 1, b 1 0, b 1 1`.  A block-CSR matrix is the list of its
block rows, each row the list of its stored `(block column, block)`
pairs in storage order; this is the information content of the
`(rowp, cols, A)` arrays of `BCSRMatData`.  Vectors are lists of
2-blocks: scalar index `2*i + r` of the C arrays is `(v.getD i 0) r`.
-/

/-- A 2x2 numeric block, row-major: `b r c` is the flat entry `a[2*r+c]`. -/
abbrev Blk : Type := Fin 2 → Fin 2 → ℚ

/-- A 2-vector block: `v r` is the scalar at offset `r` inside the block. -/
abbrev Vec2 : Type := Fin 2 → ℚ

/-- The 2x2 identity block. -/
def idBlk : Blk := fun r c => if r = c then 1 else 0

/-- Block times vector, exactly the accumulation pattern of the kernels:
`y[0] += a[0]*x[bj] + a[1]*x[bj+1]; y[1] += a[2]*x[bj] + a[3]*x[bj+1]`. -/
def blkVec (a : Blk) (x : Vec2) : Vec2 :=
  fun r => a r 0 * x 0 + a r 1 * x 1

/-- Block times block, the pattern of `BCSRMatMatMultAdd2`:
`c[0] += a[0]*b[0] + a[1]*b[2]`, etc. -/
def blkMul (a b : Blk) : Blk :=
  fun r c => a r 0 * b 0 c + a r 1 * b 1 c

/-- Scalar times block (the `alpha*(...)` branch of `BCSRMatMatMultAdd2`). -/
def blkSmul (s : ℚ) (a : Blk) : Blk := fun r c => s * a r c

/-- One stored block row: the `(cols[k], A[4k..4k+3])` pairs in storage order. -/
abbrev BCSRRow : Type := List (ℕ × Blk)

/-- A block-CSR matrix as its list of block rows (`nrows = m.length`). -/
abbrev BCSR : Type := List BCSRRow

namespace Blk

theorem blkVec_zero (x : Vec2) : blkVec 0 x = 0 := by
  funext r
  simp [blkVec]

theorem blkVec_add (a b : Blk) (x : Vec2) :
    blkVec (a + b) x = blkVec a x + blkVec b x := by
  funext r
  simp [blkVec]
  ring

theorem zero_blkVec (a : Blk) : blkVec a 0 = 0 := by
  funext r
  simp [blkVec]

end Blk

/-- The dense denotation of a block-CSR matrix: the block stored at block
position `(i, j)` (summing duplicates, zero when absent). -/
def bcsrEntry (m : BCSR) (i j : ℕ) : Blk :=
  (((m.getD i []).filter (fun e => e.1 = j)).map Prod.snd).sum

/-- `BCSRMatVecMult2`, one row: starting from `y[0] = y[1] = 0`, accumulate
`a * x[cols[k]]` over the stored blocks of the row. -/
def rowMult (x : List Vec2) (row : BCSRRow) : Vec2 :=
  row.foldl (fun y e => y + blkVec e.2 (x.getD e.1 0)) 0

/-- `BCSRMatVecMult2` (`y = A * x`): every block row produces its block of `y`. -/
def bcsrMult (m : BCSR) (x : List Vec2) : List Vec2 :=
  m.map (rowMult x)

/-- `BCSRMatVecMultAdd2` (`z = A * x + y`): row `i` starts from `z = y[i]`
and accumulates the same products as `bcsrMult`. -/
def bcsrMultAdd (m : BCSR) (x y : List Vec2) : List Vec2 :=
  List.zipWith (fun row yi => yi + rowMult x row) m y

section MultSpec

/-- Fold with a running block accumulator equals accumulator plus list sum. -/
theorem rowMult_foldl_eq (x : List Vec2) (row : BCSRRow) (y0 : Vec2) :
    row.foldl (fun y e => y + blkVec e.2 (x.getD e.1 0)) y0 =
      y0 + (row.map (fun e => blkVec e.2 (x.getD e.1 0))).sum := by
  induction row generalizing y0 with
  | nil => simp
  | cons e t ih =>
      simp only [List.foldl_cons, List.map_cons, List.sum_cons]
      rw [ih]
      abel

/-- The per-row sparse accumulation equals the dense row-times-vector sum,
provided every stored column index is in range. -/
theorem rowMult_eq_dense (x : List Vec2) (row : BCSRRow) (n : ℕ)
    (hcols : ∀ e ∈ row, e.1 < n) :
    rowMult x row =
      ∑ j ∈ Finset.range n,
        blkVec ((((row.filter (fun e => e.1 = j)).map Prod.snd)).sum)
          (x.getD j 0) := by
  induction row with
  | nil =>
      simp [rowMult, Blk.blkVec_zero]
  | cons e t ih =>
      have he : e.1 < n := hcols e (List.mem_cons_self e t)
      have ht : ∀ e' ∈ t, e'.1 < n := fun e' h => hcols e' (List.mem_cons_of_mem e h)
      have hstep : rowMult x (e :: t) = blkVec e.2 (x.getD e.1 0) + rowMult x t := by
        simp only [rowMult, List.foldl_cons]
        rw [rowMult_foldl_eq, rowMult_foldl_eq]
        abel
      rw [hstep, ih ht]
      have hsingle :
          blkVec e.2 (x.getD e.1 0) =
            ∑ j ∈ Finset.range n,
              if e.1 = j then blkVec e.2 (x.getD j 0) else 0 := by
        rw [Finset.sum_ite_eq (Finset.range n) e.1
          (fun j => blkVec e.2 (x.getD j 0))]
        simp [Finset.mem_range.mpr he]
      rw [hsingle, ← Finset.sum_add_distrib]
      refine Finset.sum_congr rfl (fun j _ => ?_)
      by_cases hj : e.1 = j
      · subst hj
        simp [List.filter_cons, Blk.blkVec_add]
      · simp [List.filter_cons, hj]

end MultSpec

section GetHelpers

theorem getD_map_row (f : BCSRRow → Vec2) (l : BCSR) (i : ℕ) (h : i < l.length) :
    (l.map f).getD i 0 = f (l.getD i []) := by
  rw [List.getD_eq_getElem _ _ (by simpa using h), List.getD_eq_getElem _ _ h,
    List.getElem_map]

theorem getD_zipWith_vec (f : BCSRRow → Vec2 → Vec2) (l : BCSR) (v : List Vec2)
    (i : ℕ) (h1 : i < l.length) (h2 : i < v.length) :
    (List.zipWith f l v).getD i 0 = f (l.getD i []) (v.getD i 0) := by
  have hlen : i < (List.zipWith f l v).length := by
    rw [List.length_zipWith]
    exact lt_min h1 h2
  rw [List.getD_eq_getElem _ _ hlen, List.getD_eq_getElem _ _ h1,
    List.getD_eq_getElem _ _ h2, List.getElem_zipWith]

theorem getD_take_vec (l : List Vec2) (n i : ℕ) (h : i < (l.take n).length) :
    (l.take n).getD i 0 = l.getD i 0 := by
  have h' : i < l.length := by
    rw [List.length_take] at h
    omega
  rw [List.getD_eq_getElem _ _ h, List.getD_eq_getElem _ _ h', List.getElem_take]

theorem getD_drop_vec (l : List Vec2) (m i : ℕ) (h : m + i < l.length) :
    (l.drop m).getD i 0 = l.getD (m + i) 0 := by
  have h' : i < (l.drop m).length := by
    rw [List.length_drop]
    omega
  rw [List.getD_eq_getElem _ _ h', List.getD_eq_getElem _ _ h, List.getElem_drop]

end GetHelpers

/-- Sparse matvec agrees with the dense denotation on every in-range row. -/
theorem bcsrMult_getD_eq_dense (m : BCSR) (x : List Vec2) (n i : ℕ)
    (hi : i < m.length)
    (hcols : ∀ e ∈ m.getD i [], e.1 < n) :
    (bcsrMult m x).getD i 0 =
      ∑ j ∈ Finset.range n, blkVec (bcsrEntry m i j) (x.getD j 0) := by
  rw [bcsrMult, getD_map_row _ _ _ hi, rowMult_eq_dense x _ n hcols]
  rfl

/-- `PMat::mult` (the local computation, with `x_ext` already holding the
gathered foreign interface values): `y := Aloc * x` over all `N` block rows,
then `Bext->multAdd(x_ext, &y[ext_offset], &y[ext_offset])` overwrites the
interface slice (block offset `Np = ext_offset / bsize`) with
`y[slice] + Bext * x_ext`. -/
def pmatMult (Aloc Bext : BCSR) (Np : ℕ) (x xext : List Vec2) : List Vec2 :=
  let y := bcsrMult Aloc x
  y.take Np ++ bcsrMultAdd Bext xext (y.drop Np)

/-- C1: `PMat::mult` equals the serial evaluation
`y = [A x_local; A x_local + B x_ext]`: every block row receives the dense
product `A·x`, and `B·x_ext` is added exactly on the interface slice
starting at block offset `Np = N - Nc`. -/
theorem pmatMult_eq_serial (Aloc Bext : BCSR) (Np : ℕ) (x xext : List Vec2)
    (hsplit : Np + Bext.length = Aloc.length)
    (hA : ∀ row ∈ Aloc, ∀ e ∈ row, e.1 < Aloc.length)
    (hB : ∀ row ∈ Bext, ∀ e ∈ row, e.1 < xext.length) :
    ∀ i < Aloc.length,
      (pmatMult Aloc Bext Np x xext).getD i 0 =
        (∑ j ∈ Finset.range Aloc.length, blkVec (bcsrEntry Aloc i j) (x.getD j 0))
        + (if Np ≤ i then
            ∑ j ∈ Finset.range xext.length,
              blkVec (bcsrEntry Bext (i - Np) j) (xext.getD j 0)
          else 0) := by
  intro i hi
  have hylen : (bcsrMult Aloc x).length = Aloc.length := by
    simp [bcsrMult]
  have hAx : (bcsrMult Aloc x).getD i 0 =
      ∑ j ∈ Finset.range Aloc.length, blkVec (bcsrEntry Aloc i j) (x.getD j 0) := by
    refine bcsrMult_getD_eq_dense Aloc x Aloc.length i hi ?_
    intro e he
    have hmem : Aloc.getD i [] ∈ Aloc := by
      rw [List.getD_eq_getElem _ _ hi]
      exact List.getElem_mem hi
    exact hA _ hmem e he
  have htake : ((bcsrMult Aloc x).take Np).length = min Np Aloc.length := by
    simp [hylen]
  by_cases hcase : i < Np
  · -- strictly-interior block row: only the diagonal product contributes
    have hlt : i < ((bcsrMult Aloc x).take Np).length := by
      rw [htake]
      exact lt_min hcase hi
    rw [pmatMult]
    rw [List.getD_append _ _ _ _ hlt, getD_take_vec _ _ _ hlt, hAx]
    simp [Nat.not_le.mpr hcase]
  · -- interface block row: the off-diagonal product is added on top
    push_neg at hcase
    have hNp_le : Np ≤ Aloc.length := by omega
    have hlen_take : ((bcsrMult Aloc x).take Np).length = Np := by
      rw [htake]
      omega
    have hge : ((bcsrMult Aloc x).take Np).length ≤ i := by omega
    rw [pmatMult, List.getD_append_right _ _ _ _ hge]
    rw [hlen_take]
    have hiB : i - Np < Bext.length := by omega
    have hiD : i - Np < ((bcsrMult Aloc x).drop Np).length := by
      rw [List.length_drop, hylen]
      omega
    rw [bcsrMultAdd, getD_zipWith_vec _ _ _ _ hiB (by
      rw [List.length_drop, hylen]; omega)]
    have hdrop : ((bcsrMult Aloc x).drop Np).getD (i - Np) 0 =
        (bcsrMult Aloc x).getD i 0 := by
      have : Np + (i - Np) = i := by omega
      rw [getD_drop_vec _ _ _ (by omega), this]
    rw [hdrop, hAx]
    have hrowB : ∀ e ∈ Bext.getD (i - Np) [], e.1 < xext.length := by
      intro e he
      have hmem : Bext.getD (i - Np) [] ∈ Bext := by
        rw [List.getD_eq_getElem _ _ hiB]
        exact List.getElem_mem hiB
      exact hB _ hmem e he
    rw [rowMult_eq_dense xext _ xext.length hrowB]
    simp [bcsrEntry, hcase]

/-- Concrete diagonal block for the C1 witness (`N = 3`, `Np = 2`, `Nc = 1`). -/
def c1Aloc : BCSR :=
  [[(0, fun _ _ => 2)], [(0, fun _ _ => 1), (1, fun _ _ => 3)],
   [(2, fun _ _ => 5)]]

/-- Concrete coupling block for the C1 witness (one external column). -/
def c1Bext : BCSR := [[(0, fun _ _ => 7)]]

/-- Concrete input vector for the C1 witness. -/
def c1x : List Vec2 := [fun _ => 1, fun _ => 2, fun _ => 3]

/-- Concrete gathered external values for the C1 witness. -/
def c1xext : List Vec2 := [fun _ => 4]

/-- Witness for C1 on a concrete instance with `N = 3`, `Np = 2`, `Nc = 1`. -/
theorem pmatMult_eq_serial_witness :
    (2 + c1Bext.length = c1Aloc.length) ∧
    (∀ row ∈ c1Aloc, ∀ e ∈ row, e.1 < c1Aloc.length) ∧
    (∀ row ∈ c1Bext, ∀ e ∈ row, e.1 < c1xext.length) ∧
    ∀ i < c1Aloc.length,
      (pmatMult c1Aloc c1Bext 2 c1x c1xext).getD i 0 =
        (∑ j ∈ Finset.range c1Aloc.length,
          blkVec (bcsrEntry c1Aloc i j) (c1x.getD j 0))
        + (if 2 ≤ i then
            ∑ j ∈ Finset.range c1xext.length,
              blkVec (bcsrEntry c1Bext (i - 2) j) (c1xext.getD j 0)
          else 0) :=
  ⟨by decide, by decide, by decide,
    pmatMult_eq_serial c1Aloc c1Bext 2 c1x c1xext (by decide) (by decide)
      (by decide)⟩

/-- The rank-local memory manipulated by `PMat::mult`: the input array `x`,
the output array `y`, and the halo buffer `x_ext`. -/
structure MultState where
  x : List Vec2
  y : List Vec2
  xext : List Vec2

/-- `ext_dist->beginForward(ctx, x, x_ext)`: posts the non-blocking
transfer; while it is in flight the buffer may hold anything, modelled by
an arbitrary `inflight` content. -/
def stepBeginForward (inflight : List Vec2) (s : MultState) : MultState :=
  { s with xext := inflight }

/-- `Aloc->mult(x, y)`: the interior SpMV, which reads only `A` and `s.x`. -/
def stepInteriorMult (Aloc : BCSR) (s : MultState) : MultState :=
  { s with y := bcsrMult Aloc s.x }

/-- `ext_dist->endForward(ctx, x, x_ext)`: waits; afterwards the buffer
holds the gathered foreign interface values. -/
def stepEndForward (gathered : List Vec2) (s : MultState) : MultState :=
  { s with xext := gathered }

/-- `Bext->multAdd(x_ext, &y[ext_offset], &y[ext_offset])`: adds
`Bext * x_ext` onto the interface slice of `y`. -/
def stepExtMultAdd (Bext : BCSR) (Np : ℕ) (s : MultState) : MultState :=
  { s with y := (s.y.take Np) ++ bcsrMultAdd Bext s.xext (s.y.drop Np) }

/-- `PMat::mult` as the written sequence of steps over the memory state,
with the halo-buffer content at the time of the interior kernel made
explicit as `inflight`. -/
def pmatMultSched (Aloc Bext : BCSR) (Np : ℕ)
    (inflight gathered : List Vec2) (s : MultState) : MultState :=
  stepExtMultAdd Bext Np
    (stepEndForward gathered
      (stepInteriorMult Aloc
        (stepBeginForward inflight s)))

/-- C6: the interior SpMV of `PMat::mult` writes the same `y` for any two
halo-buffer contents, and the final output of `mult` depends only on the
gathered values present when `Bext` is applied, never on the in-flight
buffer state. -/
theorem pmatMult_interior_halo_independent (Aloc Bext : BCSR) (Np : ℕ)
    (inflight inflight' gathered : List Vec2) (s : MultState) :
    (stepInteriorMult Aloc (stepBeginForward inflight s)).y =
      (stepInteriorMult Aloc (stepBeginForward inflight' s)).y ∧
    pmatMultSched Aloc Bext Np inflight gathered s =
      pmatMultSched Aloc Bext Np inflight' gathered s ∧
    (pmatMultSched Aloc Bext Np inflight gathered s).y =
      pmatMult Aloc Bext Np s.x gathered := by
  refine ⟨rfl, rfl, ?_⟩
  simp [pmatMultSched, stepBeginForward, stepInteriorMult, stepEndForward,
    stepExtMultAdd, pmatMult]

/-- `BCSRMatApplyLower2` (`y = L^{-1} x`): forward substitution; row `i`
starts from `x[i]` and subtracts `a * y[cols[j]]` over the stored blocks
before the diagonal position (`rowp[i] ≤ j < diag[i]`, i.e. `cols[j] < i`
for a sorted row with stored diagonal). -/
def bcsrApplyLower (m : BCSR) (x : List Vec2) : List Vec2 :=
  (List.range m.length).foldl
    (fun y i =>
      let s := (m.getD i []).foldl
        (fun acc e => if e.1 < i then acc + blkVec e.2 (y.getD e.1 0) else acc) 0
      y.set i (x.getD i 0 - s))
    (List.replicate m.length 0)

/-- `BCSRMatApplyUpper2` (`y = U^{-1} x`): backward substitution; row `i`
subtracts `a * y[cols[j]]` over the stored blocks after the diagonal
position (`cols[j] > i`) and multiplies by the stored - inverted - diagonal
block. -/
def bcsrApplyUpper (m : BCSR) (x : List Vec2) : List Vec2 :=
  ((List.range m.length).reverse).foldl
    (fun y i =>
      let s := (m.getD i []).foldl
        (fun acc e => if i < e.1 then acc + blkVec e.2 (y.getD e.1 0) else acc) 0
      y.set i (blkVec (bcsrEntry m i i) (x.getD i 0 - s)))
    (List.replicate m.length 0)

/-- `BCSRMat::applyFactor(x, y)`: the full `U^{-1} L^{-1}` solve of the ILU
factor (the spec's contract for the local kernel library). -/
def bcsrApplyFactor (m : BCSR) (x : List Vec2) : List Vec2 :=
  bcsrApplyUpper m (bcsrApplyLower m x)

/-- One row update of `BCSRMatApplyPartialLower2` at global block row `i`:
`xx -= a * x[cols[j] - var_offset]` over the stored blocks with
`var_offset ≤ cols[j] < i` (the `while` skips columns `< var_offset`, the
loop stops at `diag[i]`); positions in `x` are relative to the interface
slice, as in the C code's `bj = 2*cols[j] - off`. -/
def plStep (m : BCSR) (voff i : ℕ) (x : List Vec2) : List Vec2 :=
  let s := (m.getD i []).foldl
    (fun acc e =>
      if voff ≤ e.1 ∧ e.1 < i then acc + blkVec e.2 (x.getD (e.1 - voff) 0)
      else acc) 0
  x.set (i - voff) (x.getD (i - voff) 0 - s)

/-- The first `k` iterations (rows `var_offset+1 .. var_offset+k`) of the
forward loop of `BCSRMatApplyPartialLower2`, in increasing row order. -/
def plLoop (m : BCSR) (voff : ℕ) : ℕ → List Vec2 → List Vec2
  | 0, x => x
  | k+1, x => plStep m voff (voff + k + 1) (plLoop m voff k x)

/-- `BCSRMatApplyPartialLower2`: in-place forward substitution over rows
`var_offset+1 .. nrows-1`. -/
def bcsrApplyPartialLower (m : BCSR) (voff : ℕ) (x : List Vec2) : List Vec2 :=
  plLoop m voff (m.length - (voff + 1)) x

/-- One row update of `BCSRMatApplyPartialUpper2` at global block row `i`:
subtract `a * x[cols[j] - var_offset]` over the stored blocks after the
diagonal position and multiply by the stored - inverted - diagonal block. -/
def puStep (m : BCSR) (voff i : ℕ) (x : List Vec2) : List Vec2 :=
  let s := (m.getD i []).foldl
    (fun acc e =>
      if i < e.1 then acc + blkVec e.2 (x.getD (e.1 - voff) 0) else acc) 0
  x.set (i - voff) (blkVec (bcsrEntry m i i) (x.getD (i - voff) 0 - s))

/-- The first `k` iterations (rows `nrows-1` down to `nrows-k`) of the
backward loop of `BCSRMatApplyPartialUpper2`. -/
def puLoop (m : BCSR) (voff : ℕ) : ℕ → List Vec2 → List Vec2
  | 0, x => x
  | k+1, x => puStep m voff (m.length - (k+1)) (puLoop m voff k x)

/-- `BCSRMatApplyPartialUpper2`: in-place backward substitution over rows
`nrows-1` down to `var_offset`. -/
def bcsrApplyPartialUpper (m : BCSR) (voff : ℕ) (x : List Vec2) : List Vec2 :=
  puLoop m voff (m.length - voff) x

/-- One row update of `BCSRMatApplyFactorSchur2` at block row `i < var_offset`:
subtract `a * x[cols[j]]` over the stored blocks after the diagonal position
(full-vector positions) and multiply by the stored inverted diagonal block. -/
def fsStep (m : BCSR) (i : ℕ) (x : List Vec2) : List Vec2 :=
  let s := (m.getD i []).foldl
    (fun acc e => if i < e.1 then acc + blkVec e.2 (x.getD e.1 0) else acc) 0
  x.set i (blkVec (bcsrEntry m i i) (x.getD i 0 - s))

/-- The first `k` iterations (rows `var_offset-1` down to `var_offset-k`) of
the backward loop of `BCSRMatApplyFactorSchur2`. -/
def fsLoop (m : BCSR) (voff : ℕ) : ℕ → List Vec2 → List Vec2
  | 0, x => x
  | k+1, x => fsStep m (voff - (k+1)) (fsLoop m voff k x)

/-- `BCSRMatApplyFactorSchur2`: back-substitution over the interior rows
`var_offset-1` down to `0`, treating the interface values as known. -/
def bcsrApplyFactorSchur (m : BCSR) (voff : ℕ) (x : List Vec2) : List Vec2 :=
  fsLoop m voff voff x

/-- Modelled from the spec (the numeric kernel `BCSRMat::addDiag` is
external to this repository): "addDiag(α): diagonal scalar shift" - add
`alpha` on the scalar diagonal of each stored diagonal block. -/
def bcsrAddDiag (alpha : ℚ) (m : BCSR) : BCSR :=
  m.mapIdx (fun i row =>
    row.map (fun e => if e.1 = i then (e.1, e.2 + blkSmul alpha idBlk) else e))

/-- `AdditiveSchwarz::factor()`: `Apc->copyValues(Aloc)`, then
`addDiag(alpha)` when `alpha != 0.0`, then the numeric ILU factorization;
the factorization kernel (external to this repository) is abstracted as the
argument `ilu`. -/
def additiveSchwarzFactor (ilu : BCSR → BCSR) (Aloc : BCSR) (alpha : ℚ) : BCSR :=
  ilu (if alpha ≠ 0 then bcsrAddDiag alpha Aloc else Aloc)

/-- `ApproximateSchur::factor()`: same sequence as
`AdditiveSchwarz::factor()`, on the preconditioner's own copy. -/
def approximateSchurFactor (ilu : BCSR → BCSR) (Aloc : BCSR) (alpha : ℚ) : BCSR :=
  ilu (if alpha ≠ 0 then bcsrAddDiag alpha Aloc else Aloc)

/-- `AdditiveSchwarz::applyFactor(x, y)`: `y = U^{-1} L^{-1} x` on the
local factor, no communication. -/
def additiveSchwarzApplyFactor (Apc : BCSR) (x : List Vec2) : List Vec2 :=
  bcsrApplyFactor Apc x

/-- The construction/application state of `ApproximateSchur`: which of the
optional pieces (`gsmat`, `rvec`, `wvec`, `inner_ksm`) were constructed,
plus the factor copy and the interface split. -/
structure ApproximateSchurState where
  Apc : BCSR
  gsmatBuilt : Bool
  rvecBuilt : Bool
  wvecBuilt : Bool
  innerKsmBuilt : Bool
  var_offset : ℕ

/-- `ApproximateSchur::ApproximateSchur`: `gsmat`, `rvec`, `wvec` and
`inner_ksm` start `NULL` and are constructed only under `if (size > 1)`;
`var_offset = N - Nc` is also set only there. -/
def approximateSchurCtor (size : ℕ) (Apc0 : BCSR) (N Nc : ℕ) :
    ApproximateSchurState :=
  if 1 < size then
    { Apc := Apc0, gsmatBuilt := true, rvecBuilt := true, wvecBuilt := true,
      innerKsmBuilt := true, var_offset := N - Nc }
  else
    { Apc := Apc0, gsmatBuilt := false, rvecBuilt := false,
      wvecBuilt := false, innerKsmBuilt := false, var_offset := 0 }

/-- The inner `inner_ksm->solve(rvec, wvec)` call (external GMRES),
abstracted as a map from the interface right-hand side to the iterate. -/
abbrev InnerSolve : Type := List Vec2 → List Vec2

/-- `ApproximateSchur::applyFactor(x, y)`: when `inner_ksm` exists, the
two-stage solve (partial elimination, inner Schur solve, interior
back-substitution); otherwise the plain `U^{-1} L^{-1}` solve. -/
def approximateSchurApplyFactor (innerSolve : InnerSolve)
    (st : ApproximateSchurState) (x : List Vec2) : List Vec2 :=
  if st.innerKsmBuilt then
    let y1 := bcsrApplyLower st.Apc x
    let y2 := y1.take st.var_offset ++
      bcsrApplyPartialUpper st.Apc st.var_offset (y1.drop st.var_offset)
    let r := y2.drop st.var_offset
    let w := innerSolve r
    let y3 := y2.take st.var_offset ++ w
    bcsrApplyFactorSchur st.Apc st.var_offset y3
  else
    bcsrApplyFactor st.Apc x

/-- C3: on a communicator with exactly one rank, `ApproximateSchur`
constructs no Schur operator, no inner GMRES and no interface scratch
vectors, its `factor()` agrees with `AdditiveSchwarz::factor()` for every
ILU kernel, and its `applyFactor` equals `AdditiveSchwarz::applyFactor`
on the same `A` and diagonal shift, independently of the inner solver. -/
theorem approximateSchur_singleRank_eq_additiveSchwarz
    (size : ℕ) (hsize : size = 1) (Apc0 Aloc : BCSR) (alpha : ℚ)
    (ilu : BCSR → BCSR) (N Nc : ℕ) (innerSolve innerSolve' : InnerSolve)
    (x : List Vec2) :
    ((approximateSchurCtor size Apc0 N Nc).gsmatBuilt = false ∧
     (approximateSchurCtor size Apc0 N Nc).rvecBuilt = false ∧
     (approximateSchurCtor size Apc0 N Nc).wvecBuilt = false ∧
     (approximateSchurCtor size Apc0 N Nc).innerKsmBuilt = false) ∧
    approximateSchurFactor ilu Aloc alpha = additiveSchwarzFactor ilu Aloc alpha ∧
    approximateSchurApplyFactor innerSolve
        { approximateSchurCtor size Apc0 N Nc with
            Apc := approximateSchurFactor ilu Aloc alpha } x =
      additiveSchwarzApplyFactor (additiveSchwarzFactor ilu Aloc alpha) x ∧
    approximateSchurApplyFactor innerSolve
        { approximateSchurCtor size Apc0 N Nc with
            Apc := approximateSchurFactor ilu Aloc alpha } x =
      approximateSchurApplyFactor innerSolve'
        { approximateSchurCtor size Apc0 N Nc with
            Apc := approximateSchurFactor ilu Aloc alpha } x := by
  subst hsize
  refine ⟨⟨rfl, rfl, rfl, rfl⟩, rfl, ?_, ?_⟩ <;>
    simp [approximateSchurApplyFactor, approximateSchurCtor,
      additiveSchwarzApplyFactor, approximateSchurFactor,
      additiveSchwarzFactor]

/-- Witness for C3 at a concrete single-rank instance. -/
theorem approximateSchur_singleRank_eq_additiveSchwarz_witness :
    ((approximateSchurCtor 1 [] 3 1).gsmatBuilt = false ∧
     (approximateSchurCtor 1 [] 3 1).rvecBuilt = false ∧
     (approximateSchurCtor 1 [] 3 1).wvecBuilt = false ∧
     (approximateSchurCtor 1 [] 3 1).innerKsmBuilt = false) ∧
    approximateSchurFactor id c1Aloc 2 = additiveSchwarzFactor id c1Aloc 2 ∧
    approximateSchurApplyFactor id
        { approximateSchurCtor 1 [] 3 1 with
            Apc := approximateSchurFactor id c1Aloc 2 } c1x =
      additiveSchwarzApplyFactor (additiveSchwarzFactor id c1Aloc 2) c1x ∧
    approximateSchurApplyFactor id
        { approximateSchurCtor 1 [] 3 1 with
            Apc := approximateSchurFactor id c1Aloc 2 } c1x =
      approximateSchurApplyFactor (fun v => v ++ v)
        { approximateSchurCtor 1 [] 3 1 with
            Apc := approximateSchurFactor id c1Aloc 2 } c1x :=
  approximateSchur_singleRank_eq_additiveSchwarz 1 rfl [] c1Aloc 2 id 3 1
    id (fun v => v ++ v) c1x

/-- The sparsity pattern of a block-CSR matrix: the stored block columns of
each block row. -/
def bcsrPattern (m : BCSR) : List (List ℕ) :=
  m.map (fun row => row.map Prod.fst)

/-- Modelled from the spec (the `BCSRMat::copyValues` kernel is external to
this repository): "copyFrom(other): structural-identity required; copy A
and B values element-wise".  With identical sparsity the element-wise copy
makes the destination equal to the source; otherwise nothing is copied. -/
def bcsrCopyValues (dst src : BCSR) : BCSR :=
  if bcsrPattern dst = bcsrPattern src then src else dst

/-- The dynamic kind of a `TACSMat` argument as seen by
`dynamic_cast<PMat*>` in `PMat::copyValues`: either a distributed matrix
with its two blocks, or a matrix of any other dynamic type (cast yields
null). -/
inductive TACSMatKind where
  | pmat (Aloc Bext : BCSR) : TACSMatKind
  | nonPMat : TACSMatKind

/-- `PMat::copyValues(mat)`: if the cast succeeds, delegate the value copy
of both blocks; otherwise print the type-mismatch diagnostic and leave the
matrix untouched.  Returns the new `(Aloc, Bext)` and whether the
type-mismatch diagnostic was emitted. -/
def pmatCopyValues (Aloc Bext : BCSR) (mat : TACSMatKind) :
    (BCSR × BCSR) × Bool :=
  match mat with
  | .pmat A2 B2 => ((bcsrCopyValues Aloc A2, bcsrCopyValues Bext B2), false)
  | .nonPMat => ((Aloc, Bext), true)

/-- Counterexample to C5 as stated: for `other` a DistributedMatrix whose
`Aloc` sparsity differs from this matrix's, `PMat::copyValues` reports no
`TypeMismatch` (the only test in the code is the `dynamic_cast`), while the
claim requires the mismatch to be reported exactly when `other` is not a
DistributedMatrix *with the same sparsity*. -/
theorem pmatCopyValues_sparsity_no_mismatch :
    bcsrPattern [[(0, (fun _ _ => 1 : Blk))]] ≠ bcsrPattern [[]] ∧
    (pmatCopyValues [[]] [[]]
      (.pmat [[(0, (fun _ _ => 1 : Blk))]] [[]])).2 = false := by
  exact ⟨by decide, rfl⟩

/-- C5 (amended): `PMat::copyValues(other)` copies the values of `A` and
`B` element-wise when `other` is a DistributedMatrix with the same
sparsity; it reports `TypeMismatch` on the diagnostic stream - leaving `A`
and `B` unchanged - exactly when `other` is not a DistributedMatrix,
regardless of sparsity. -/
theorem pmatCopyValues_amended (Aloc Bext A2 B2 : BCSR) (mat : TACSMatKind)
    (hA : bcsrPattern Aloc = bcsrPattern A2)
    (hB : bcsrPattern Bext = bcsrPattern B2) :
    pmatCopyValues Aloc Bext (.pmat A2 B2) = ((A2, B2), false) ∧
    ((pmatCopyValues Aloc Bext mat).2 = true ↔ mat = .nonPMat) ∧
    (pmatCopyValues Aloc Bext .nonPMat).1 = (Aloc, Bext) := by
  refine ⟨by simp [pmatCopyValues, bcsrCopyValues, hA, hB], ?_, rfl⟩
  cases mat <;> simp [pmatCopyValues]

/-- Witness for C5 (amended) at a concrete instance. -/
theorem pmatCopyValues_amended_witness :
    pmatCopyValues [[(0, fun _ _ => 1)]] [] (.pmat [[(0, fun _ _ => 7)]] []) =
      (([[(0, fun _ _ => 7)]], []), false) ∧
    ((pmatCopyValues [[(0, fun _ _ => 1)]] [] .nonPMat).2 = true ↔
      (.nonPMat : TACSMatKind) = .nonPMat) ∧
    (pmatCopyValues [[(0, fun _ _ => 1)]] [] .nonPMat).1 =
      ([[(0, fun _ _ => 1)]], []) :=
  pmatCopyValues_amended [[(0, fun _ _ => 1)]] [] [[(0, fun _ _ => 7)]] []
    .nonPMat (by decide) (by decide)

/-- The operations of the `PSOR` constructor that touch the `ext_dist`
member, listed in source order.  `readExtDistDim` is the expression
`bsize*ext_dist->getDim()` sizing the `yext` scratch buffer;
`assignExtDist` is the later `mat->getExtColMap(&ext_dist)`. -/
inductive PSORCtorOp where
  | getBCSRMat
  | createVec
  | getRowMap
  | computeExtOffset
  | readExtDistDim
  | allocYext
  | assignExtDist
  | increfExtDist
  | createCtx
  | storeOptions
deriving DecidableEq

/-- The statement order of the `PSOR::PSOR` constructor body. -/
def psorCtorTrace : List PSORCtorOp :=
  [.getBCSRMat, .createVec, .getRowMap, .computeExtOffset,
   .readExtDistDim, .allocYext, .assignExtDist, .increfExtDist,
   .createCtx, .storeOptions]

/-- Whether `ext_dist` has been assigned, and whether it was dereferenced
while still unassigned, along the constructor body. -/
structure PSORCtorState where
  extDistSet : Bool
  readUninitExtDist : Bool
deriving DecidableEq

/-- Effect of each constructor operation on the `ext_dist` initialization
state: the `getDim` call dereferences the member, the `getExtColMap` call
assigns it; nothing else touches it. -/
def psorCtorStep (s : PSORCtorState) (op : PSORCtorOp) : PSORCtorState :=
  match op with
  | .readExtDistDim =>
      { s with readUninitExtDist := s.readUninitExtDist || !s.extDistSet }
  | .assignExtDist => { s with extDistSet := true }
  | _ => s

/-- C8: running the `PSOR` constructor body from an uninitialized
`ext_dist` member dereferences `ext_dist` (to size `yext`) before the
member is assigned from the matrix's external column map: the sizing read
happens on an uninitialized member, and the read strictly precedes the
assignment in the statement order. -/
theorem psorCtor_reads_extDist_before_init :
    (psorCtorTrace.foldl psorCtorStep ⟨false, false⟩).readUninitExtDist = true ∧
    psorCtorTrace.indexOf .readExtDistDim <
      psorCtorTrace.indexOf .assignExtDist := by
  exact ⟨rfl, by decide⟩

/-- The configuration stored by the `PSOR` constructor. -/
structure PSORData where
  zero_guess : Bool
  isSymmetric : Bool
  omega : ℚ
  iters : ℕ

/-- The type of the external (S)SOR sweep kernels
`BCSRMat::applySOR/applySSOR`: matrix, right-hand side, initial iterate
(updated in place), relaxation weight, sweep count. -/
abbrev SORKernel : Type := BCSR → List Vec2 → List Vec2 → ℚ → ℕ → List Vec2

/-- `PSOR::applyFactor(x, y)`.  With `zero_guess`: `yvec->zeroEntries()`
then `iters` sweeps of `applySOR`/`applySSOR` of `Aloc` against `x` into
`y`.  Otherwise: halo-exchange `y` into `yext`, `b[ext_offset] :=
Bext*yext`, `b := x - b`, then the sweeps against `b`.  Returns the new
`y` and whether the halo exchange was performed. -/
def psorApplyFactor (sorK ssorK : SORKernel) (Aloc Bext : BCSR)
    (extOffB : ℕ) (d : PSORData) (yextGathered : List Vec2)
    (x y : List Vec2) : List Vec2 × Bool :=
  if d.zero_guess then
    ((if d.isSymmetric then ssorK else sorK) Aloc x
        (List.replicate y.length 0) d.omega d.iters, false)
  else
    let b0 : List Vec2 := List.replicate Aloc.length 0
    let b1 := b0.take extOffB ++ bcsrMult Bext yextGathered ++
      b0.drop (extOffB + Bext.length)
    let b := List.zipWith (fun xi bi => xi - bi) x b1
    ((if d.isSymmetric then ssorK else sorK) Aloc b y d.omega d.iters, true)

/-- C7: with `zero_guess` set, `PSOR::applyFactor` zeroes `y` and runs the
`iters` (S)SOR sweeps of `Aloc` against `x` on it, performs no halo
exchange, and its result is independent of `Bext` and of the `yext`
scratch contents - for every pair of sweep kernels. -/
theorem psorApplyFactor_zero_guess (sorK ssorK : SORKernel)
    (Aloc Bext Bext' : BCSR) (extOffB : ℕ) (d : PSORData)
    (yextGathered yextGathered' : List Vec2) (x y : List Vec2)
    (hzg : d.zero_guess = true) :
    (psorApplyFactor sorK ssorK Aloc Bext extOffB d yextGathered x y).2 =
      false ∧
    (psorApplyFactor sorK ssorK Aloc Bext extOffB d yextGathered x y).1 =
      (if d.isSymmetric then ssorK else sorK) Aloc x
        (List.replicate y.length 0) d.omega d.iters ∧
    psorApplyFactor sorK ssorK Aloc Bext extOffB d yextGathered x y =
      psorApplyFactor sorK ssorK Aloc Bext' extOffB d yextGathered' x y := by
  refine ⟨?_, ?_, ?_⟩ <;> simp [psorApplyFactor, hzg]

/-- Witness for C7 at a concrete configuration and kernels. -/
theorem psorApplyFactor_zero_guess_witness :
    (psorApplyFactor (fun _ b y _ _ => y) (fun _ b y _ _ => b) c1Aloc c1Bext
        2 ⟨true, false, 1, 2⟩ c1xext c1x c1x).2 = false ∧
    (psorApplyFactor (fun _ b y _ _ => y) (fun _ b y _ _ => b) c1Aloc c1Bext
        2 ⟨true, false, 1, 2⟩ c1xext c1x c1x).1 =
      (if (false : Bool) then (fun _ b y _ _ => b : SORKernel)
       else (fun _ b y _ _ => y)) c1Aloc c1x
        (List.replicate c1x.length 0) 1 2 ∧
    psorApplyFactor (fun _ b y _ _ => y) (fun _ b y _ _ => b) c1Aloc c1Bext
        2 ⟨true, false, 1, 2⟩ c1xext c1x c1x =
      psorApplyFactor (fun _ b y _ _ => y) (fun _ b y _ _ => b) c1Aloc []
        2 ⟨true, false, 1, 2⟩ [] c1x c1x :=
  psorApplyFactor_zero_guess (fun _ b y _ _ => y) (fun _ b y _ _ => b)
    c1Aloc c1Bext [] 2 ⟨true, false, 1, 2⟩ c1xext [] c1x c1x rfl

/-- Modelled from the spec (the `BCSRMat::zeroRow(row, n_vars, var_list,
ident)` kernel is external to this repository): for each listed
within-block variable `v`, zero the scalar row `v` of every stored block
of block row `row`; when `ident` is set, substitute `1` at the diagonal
position `(v, v)` of the stored diagonal block. -/
def zeroBlkVars (b : Blk) (vars : List (Fin 2)) (isDiag : Bool) : Blk :=
  fun v c => if v ∈ vars then (if isDiag ∧ v = c then 1 else 0) else b v c

/-- `zeroRow` on the matrix: replace block row `row` by its per-variable
zeroed form; other rows are untouched. -/
def zeroRowB (m : BCSR) (row : ℕ) (vars : List (Fin 2)) (ident : Bool) : BCSR :=
  m.set row ((m.getD row []).map
    (fun e => (e.1, zeroBlkVars e.2 vars (ident && (e.1 == row)))))

/-- The stored block columns of block row `r`. -/
def colsMap (m : BCSR) (r : ℕ) : List ℕ := (m.getD r []).map Prod.fst

section ZeroRowLemmas

theorem getD_set_row (l : BCSR) (i : ℕ) (a : BCSRRow) (j : ℕ) :
    (l.set i a).getD j [] =
      if i = j ∧ j < l.length then a else l.getD j [] := by
  by_cases hj : j < l.length
  · rw [List.getD_eq_getElem _ _ (by simpa using hj), List.getElem_set]
    by_cases hij : i = j
    · simp [hij, hj]
    · rw [List.getD_eq_getElem _ _ hj]
      simp [hij]
  · have h1 : l.length ≤ j := le_of_not_lt hj
    rw [List.getD_eq_default _ _ (by simpa using h1), List.getD_eq_default _ _ h1]
    simp [hj]

theorem zeroRowB_length (m : BCSR) (row : ℕ) (vars : List (Fin 2))
    (ident : Bool) : (zeroRowB m row vars ident).length = m.length := by
  simp [zeroRowB]

theorem filter_map_fst_preserving (l : BCSRRow) (g : ℕ × Blk → Blk) (j : ℕ) :
    (l.map (fun e => (e.1, g e))).filter (fun e => e.1 = j) =
      (l.filter (fun e => e.1 = j)).map (fun e => (e.1, g e)) := by
  induction l with
  | nil => rfl
  | cons e t ih => by_cases h : e.1 = j <;> simp [List.filter_cons, h, ih]

theorem zeroRowB_colsMap (m : BCSR) (row : ℕ) (vars : List (Fin 2))
    (ident : Bool) (r : ℕ) :
    colsMap (zeroRowB m row vars ident) r = colsMap m r := by
  unfold colsMap zeroRowB
  rw [getD_set_row]
  by_cases h : row = r ∧ r < m.length
  · obtain ⟨h1, h2⟩ := h
    subst h1
    simp [h2, List.map_map, Function.comp]
  · simp [h]

theorem blkListSum_apply (L : List Blk) (v c : Fin 2) :
    L.sum v c = (L.map (fun b => b v c)).sum := by
  induction L with
  | nil => rfl
  | cons b t ih => simp [List.sum_cons, Pi.add_apply, ih]

/-- Scalar value of a `bcsrEntry` of the zeroed row, reduced to a sum over
the filtered original row. -/
theorem bcsrEntry_zeroRowB_apply (m : BCSR) (row : ℕ) (vars : List (Fin 2))
    (ident : Bool) (j : ℕ) (v c : Fin 2) (hrow : row < m.length) :
    bcsrEntry (zeroRowB m row vars ident) row j v c =
      (((m.getD row []).filter (fun e => e.1 = j)).map
        (fun e => zeroBlkVars e.2 vars (ident && (e.1 == row)) v c)).sum := by
  unfold bcsrEntry zeroRowB
  rw [getD_set_row]
  simp only [hrow, and_self, if_pos, and_true]
  rw [filter_map_fst_preserving, List.map_map, blkListSum_apply, List.map_map]
  rfl

theorem bcsrEntry_zeroRowB_other (m : BCSR) (row : ℕ) (vars : List (Fin 2))
    (ident : Bool) (r j : ℕ) (hr : row ≠ r ∨ ¬ row < m.length) :
    bcsrEntry (zeroRowB m row vars ident) r j = bcsrEntry m r j := by
  unfold bcsrEntry zeroRowB
  rw [getD_set_row]
  rcases hr with h | h
  · simp [h]
  · by_cases h2 : row = r
    · subst h2
      simp [h]
    · simp [h2]

theorem length_filter_eq_one (l : BCSRRow) (j : ℕ)
    (hnd : (l.map Prod.fst).Nodup) (hmem : j ∈ l.map Prod.fst) :
    (l.filter (fun e => e.1 = j)).length = 1 := by
  induction l with
  | nil => simp at hmem
  | cons e t ih =>
      simp only [List.map_cons, List.nodup_cons] at hnd
      obtain ⟨hne, hndt⟩ := hnd
      by_cases h : e.1 = j
      · subst h
        have hflt : t.filter (fun x => x.1 = e.1) = [] := by
          rw [List.filter_eq_nil_iff]
          intro a ha hpa
          exact hne (by
            have : a.1 = e.1 := by simpa using hpa
            rw [← this]
            exact List.mem_map_of_mem Prod.fst ha)
        simp [List.filter_cons, hflt]
      · have hmem' : j ∈ t.map Prod.fst := by
          rcases (List.mem_cons.mp hmem) with h1 | h1
          · exact absurd h1.symm h
          · exact h1
        simp [List.filter_cons, h, ih hndt hmem']

theorem sum_map_const_rat (l : BCSRRow) (κ : ℚ) :
    (l.map (fun _ => κ)).sum = l.length * κ := by
  induction l with
  | nil => simp
  | cons e t ih =>
      simp [ih]
      ring

end ZeroRowLemmas

/-- Scalar row `v` of block row `r` is the global identity row: `1` at the
diagonal scalar position, `0` everywhere else in the block row. -/
def IdScalarRow (m : BCSR) (r : ℕ) (v : Fin 2) : Prop :=
  ∀ j, ∀ c : Fin 2, bcsrEntry m r j v c = if j = r ∧ c = v then 1 else 0

/-- Scalar row `v` of block row `r` is identically zero. -/
def ZeroScalarRow (m : BCSR) (r : ℕ) (v : Fin 2) : Prop :=
  ∀ j, ∀ c : Fin 2, bcsrEntry m r j v c = 0

/-- Structural invariant for the diagonal block matrix: each in-range row
stores its diagonal block, and no row stores a column twice. -/
def AWf (m : BCSR) : Prop :=
  (∀ r < m.length, r ∈ colsMap m r) ∧ ∀ r < m.length, (colsMap m r).Nodup

section ZeroRowScalar

/-- `zeroRow` with `ident = 1` makes the constrained scalar row the
identity row (needs the diagonal stored and unique). -/
theorem zeroRowB_makes_IdScalarRow (m : BCSR) (row : ℕ)
    (vars : List (Fin 2)) (v : Fin 2) (hrow : row < m.length)
    (hdiag : row ∈ colsMap m row) (hnd : (colsMap m row).Nodup)
    (hv : v ∈ vars) :
    IdScalarRow (zeroRowB m row vars true) row v := by
  intro j c
  rw [bcsrEntry_zeroRowB_apply _ _ _ _ _ _ _ hrow]
  by_cases hj : j = row
  · subst hj
    have hone : ((m.getD j []).filter (fun e => e.1 = j)).length = 1 :=
      length_filter_eq_one _ _ hnd hdiag
    have hconst :
        ((m.getD j []).filter (fun e => e.1 = j)).map
          (fun e => zeroBlkVars e.2 vars (true && (e.1 == j)) v c) =
        ((m.getD j []).filter (fun e => e.1 = j)).map
          (fun _ => if c = v then (1 : ℚ) else 0) := by
      refine List.map_congr_left (fun e he => ?_)
      have hej : e.1 = j := by
        have := List.of_mem_filter he
        simpa using this
      by_cases hvc : v = c
      · subst hvc
        simp [zeroBlkVars, hv, hej]
      · simp [zeroBlkVars, hv, hej, hvc, Ne.symm hvc]
    rw [hconst, sum_map_const_rat, hone]
    simp
  · have hzero :
        ((m.getD row []).filter (fun e => e.1 = j)).map
          (fun e => zeroBlkVars e.2 vars (true && (e.1 == row)) v c) =
        ((m.getD row []).filter (fun e => e.1 = j)).map
          (fun _ => (0 : ℚ)) := by
      refine List.map_congr_left (fun e he => ?_)
      have hej : e.1 = j := by
        have := List.of_mem_filter he
        simpa using this
      have hne : (e.1 == row) = false := by
        simp [hej, hj]
      simp [zeroBlkVars, hv, hne]
    rw [hzero, sum_map_const_rat]
    simp [hj]

/-- `zeroRow` with `ident = 0` zeroes the constrained scalar row. -/
theorem zeroRowB_makes_ZeroScalarRow (m : BCSR) (row : ℕ)
    (vars : List (Fin 2)) (v : Fin 2) (hv : v ∈ vars) :
    ZeroScalarRow (zeroRowB m row vars false) row v := by
  intro j c
  by_cases hrow : row < m.length
  · rw [bcsrEntry_zeroRowB_apply _ _ _ _ _ _ _ hrow]
    have hzero :
        ((m.getD row []).filter (fun e => e.1 = j)).map
          (fun e => zeroBlkVars e.2 vars (false && (e.1 == row)) v c) =
        ((m.getD row []).filter (fun e => e.1 = j)).map
          (fun _ => (0 : ℚ)) := by
      refine List.map_congr_left (fun e _ => ?_)
      simp [zeroBlkVars, hv]
    rw [hzero, sum_map_const_rat]
    simp
  · -- `List.set` out of range is a no-op, and an out-of-range row denotes zero
    rw [bcsrEntry_zeroRowB_other _ _ _ _ _ _ (Or.inr hrow)]
    unfold bcsrEntry
    rw [List.getD_eq_default]
    · simp
    · omega

/-- An unconstrained scalar row is untouched by `zeroRow`. -/
theorem zeroRowB_unconstrained (m : BCSR) (row : ℕ) (vars : List (Fin 2))
    (ident : Bool) (v : Fin 2) (hv : v ∉ vars) (r j : ℕ) (c : Fin 2) :
    bcsrEntry (zeroRowB m row vars ident) r j v c = bcsrEntry m r j v c := by
  by_cases hr : row = r ∧ row < m.length
  · obtain ⟨h1, h2⟩ := hr
    subst h1
    rw [bcsrEntry_zeroRowB_apply _ _ _ _ _ _ _ h2]
    unfold bcsrEntry
    rw [blkListSum_apply, List.map_map]
    refine congrArg List.sum (List.map_congr_left (fun e _ => ?_))
    simp [zeroBlkVars, hv, Function.comp]
  · rw [bcsrEntry_zeroRowB_other]
    by_cases h1 : row = r
    · exact Or.inr (fun h2 => hr ⟨h1, h2⟩)
    · exact Or.inl h1

end ZeroRowScalar

section ZeroRowPreservation

theorem zeroRowB_AWf (m : BCSR) (row : ℕ) (vars : List (Fin 2))
    (ident : Bool) (h : AWf m) : AWf (zeroRowB m row vars ident) := by
  constructor
  · intro r hr
    rw [zeroRowB_colsMap]
    exact h.1 r (by rwa [zeroRowB_length] at hr)
  · intro r hr
    rw [zeroRowB_colsMap]
    exact h.2 r (by rwa [zeroRowB_length] at hr)

theorem zeroRowB_preserves_IdScalarRow (m : BCSR) (row : ℕ)
    (vars : List (Fin 2)) (hwf : AWf m) (r : ℕ) (v : Fin 2)
    (hid : IdScalarRow m r v) :
    IdScalarRow (zeroRowB m row vars true) r v := by
  by_cases hcase : row = r ∧ row < m.length
  · obtain ⟨h1, h2⟩ := hcase
    subst h1
    by_cases hv : v ∈ vars
    · exact zeroRowB_makes_IdScalarRow m row vars v h2 (hwf.1 row h2)
        (hwf.2 row h2) hv
    · intro j c
      rw [zeroRowB_unconstrained m row vars true v hv]
      exact hid j c
  · intro j c
    rw [bcsrEntry_zeroRowB_other m row vars true r j (by tauto)]
    exact hid j c

theorem zeroRowB_preserves_ZeroScalarRow (m : BCSR) (row : ℕ)
    (vars : List (Fin 2)) (r : ℕ) (v : Fin 2)
    (hz : ZeroScalarRow m r v) :
    ZeroScalarRow (zeroRowB m row vars false) r v := by
  by_cases hcase : row = r
  · subst hcase
    by_cases hv : v ∈ vars
    · exact zeroRowB_makes_ZeroScalarRow m row vars v hv
    · intro j c
      rw [zeroRowB_unconstrained m row vars false v hv]
      exact hz j c
  · intro j c
    rw [bcsrEntry_zeroRowB_other m row vars false r j (Or.inl hcase)]
    exact hz j c

end ZeroRowPreservation

/-- One iteration of the boundary-condition loop of `PMat::applyBCs` for a
single record `(global row, constrained variables)`: if the global row is
owned (`ownerRange[rank] ≤ global < ownerRange[rank+1]`), zero its block
row in `Aloc` with identity substitution, and - when the local index
reaches the interface (`bvar - (N-Nc) ≥ 0`) - zero the corresponding row
of `Bext` with no substitution. -/
def applyBCsStep (lo hi Np : ℕ) (AB : BCSR × BCSR)
    (bc : ℕ × List (Fin 2)) : BCSR × BCSR :=
  if lo ≤ bc.1 ∧ bc.1 < hi then
    if Np ≤ bc.1 - lo then
      (zeroRowB AB.1 (bc.1 - lo) bc.2 true,
       zeroRowB AB.2 (bc.1 - lo - Np) bc.2 false)
    else
      (zeroRowB AB.1 (bc.1 - lo) bc.2 true, AB.2)
  else AB

/-- `PMat::applyBCs()`: the loop over all boundary-condition records. -/
def pmatApplyBCs (lo hi Np : ℕ) (bcs : List (ℕ × List (Fin 2)))
    (A B : BCSR) : BCSR × BCSR :=
  bcs.foldl (applyBCsStep lo hi Np) (A, B)

theorem applyBCsStep_preserves (lo hi Np : ℕ) (bc : ℕ × List (Fin 2))
    (AB : BCSR × BCSR) (hwf : AWf AB.1) :
    AWf (applyBCsStep lo hi Np AB bc).1 ∧
    (applyBCsStep lo hi Np AB bc).1.length = AB.1.length ∧
    (∀ r v, IdScalarRow AB.1 r v →
      IdScalarRow (applyBCsStep lo hi Np AB bc).1 r v) ∧
    (∀ r v, ZeroScalarRow AB.2 r v →
      ZeroScalarRow (applyBCsStep lo hi Np AB bc).2 r v) := by
  unfold applyBCsStep
  by_cases h1 : lo ≤ bc.1 ∧ bc.1 < hi
  · by_cases h2 : Np ≤ bc.1 - lo
    · simp only [h1, and_self, if_pos, h2]
      exact ⟨zeroRowB_AWf _ _ _ _ hwf, zeroRowB_length _ _ _ _,
        fun r v => zeroRowB_preserves_IdScalarRow _ _ _ hwf r v,
        fun r v => zeroRowB_preserves_ZeroScalarRow _ _ _ r v⟩
    · simp only [h1, and_self, if_pos, h2, if_neg, if_false]
      exact ⟨zeroRowB_AWf _ _ _ _ hwf, zeroRowB_length _ _ _ _,
        fun r v => zeroRowB_preserves_IdScalarRow _ _ _ hwf r v,
        fun r v hz => hz⟩
  · simp only [if_neg h1]
    exact ⟨hwf, by simp, fun _ _ h => h, fun _ _ h => h⟩

theorem applyBCs_foldl_preserves (lo hi Np : ℕ)
    (t : List (ℕ × List (Fin 2))) :
    ∀ AB : BCSR × BCSR, AWf AB.1 →
      AWf ((t.foldl (applyBCsStep lo hi Np) AB)).1 ∧
      ((t.foldl (applyBCsStep lo hi Np) AB)).1.length = AB.1.length ∧
      (∀ r v, IdScalarRow AB.1 r v →
        IdScalarRow ((t.foldl (applyBCsStep lo hi Np) AB)).1 r v) ∧
      (∀ r v, ZeroScalarRow AB.2 r v →
        ZeroScalarRow ((t.foldl (applyBCsStep lo hi Np) AB)).2 r v) := by
  induction t with
  | nil =>
      intro AB h
      exact ⟨h, rfl, fun _ _ h => h, fun _ _ h => h⟩
  | cons bc t ih =>
      intro AB h
      have hs := applyBCsStep_preserves lo hi Np bc AB h
      have ht := ih (applyBCsStep lo hi Np AB bc) hs.1
      refine ⟨ht.1, by rw [List.foldl_cons, ht.2.1, hs.2.1], ?_, ?_⟩
      · intro r v hid
        exact ht.2.2.1 r v (hs.2.2.1 r v hid)
      · intro r v hz
        exact ht.2.2.2 r v (hs.2.2.2 r v hz)

/-- C4 (amended): after `PMat::applyBCs`, for every boundary condition
whose global row is owned by this rank and for every within-block variable
it constrains, the corresponding scalar row of `A` is the global identity
row (`1` on the diagonal scalar, `0` elsewhere across the whole block
row), and when the local block row lies in the interface (`≥ Np`) the
corresponding scalar row of `B` is identically zero.  Variables of the
block not listed by any boundary condition are not touched. -/
theorem applyBCs_constrained_rows (lo hi Np : ℕ)
    (bcs : List (ℕ × List (Fin 2))) (A B : BCSR) (hwf : AWf A)
    (hhi : hi ≤ lo + A.length) (bc : ℕ × List (Fin 2)) (hmem : bc ∈ bcs)
    (hlo : lo ≤ bc.1) (hhi2 : bc.1 < hi) (v : Fin 2) (hv : v ∈ bc.2) :
    IdScalarRow (pmatApplyBCs lo hi Np bcs A B).1 (bc.1 - lo) v ∧
    (Np ≤ bc.1 - lo →
      ZeroScalarRow (pmatApplyBCs lo hi Np bcs A B).2 (bc.1 - lo - Np) v) := by
  obtain ⟨s, t, rfl⟩ := List.append_of_mem hmem
  unfold pmatApplyBCs
  rw [List.foldl_append, List.foldl_cons]
  have hpres0 := applyBCs_foldl_preserves lo hi Np s (A, B) hwf
  set P0 := s.foldl (applyBCsStep lo hi Np) (A, B) with hP0
  have hwf0 : AWf P0.1 := hpres0.1
  have hlen0 : P0.1.length = A.length := hpres0.2.1
  have hbvar : bc.1 - lo < P0.1.length := by
    rw [hlen0]
    omega
  have hstep : applyBCsStep lo hi Np P0 bc =
      (zeroRowB P0.1 (bc.1 - lo) bc.2 true,
       if Np ≤ bc.1 - lo then zeroRowB P0.2 (bc.1 - lo - Np) bc.2 false
       else P0.2) := by
    unfold applyBCsStep
    by_cases h2 : Np ≤ bc.1 - lo <;> simp [hlo, hhi2, h2]
  have hidA : IdScalarRow (applyBCsStep lo hi Np P0 bc).1 (bc.1 - lo) v := by
    rw [hstep]
    exact zeroRowB_makes_IdScalarRow _ _ _ v hbvar (hwf0.1 _ hbvar)
      (hwf0.2 _ hbvar) hv
  have hzB : Np ≤ bc.1 - lo →
      ZeroScalarRow (applyBCsStep lo hi Np P0 bc).2 (bc.1 - lo - Np) v := by
    intro h2
    rw [hstep]
    simp only [h2, if_pos]
    exact zeroRowB_makes_ZeroScalarRow _ _ _ v hv
  have hwf1 : AWf (applyBCsStep lo hi Np P0 bc).1 :=
    (applyBCsStep_preserves lo hi Np bc P0 hwf0).1
  have hpres := applyBCs_foldl_preserves lo hi Np t _ hwf1
  exact ⟨hpres.2.2.1 _ _ hidA, fun h2 => hpres.2.2.2 _ _ (hzB h2)⟩

/-- Diagonal block with nonzero entries in both scalar rows, used to refute
C4 as stated. -/
def c4A : BCSR :=
  [[(0, fun v c =>
      if v = 0 then (if c = 0 then 2 else 3) else (if c = 0 then 5 else 7))]]

/-- Counterexample to C4 as stated: one owned boundary condition
constraining only variable `0` of block row `0`.  `zeroRow` touches only
the listed variable, so after `applyBCs` the block diagonal of the
constrained block row is `[[1,0],[5,7]]`, not the identity. -/
theorem applyBCs_block_not_identity :
    bcsrEntry (pmatApplyBCs 0 1 1 [(0, [0])] c4A []).1 0 0 1 0 = 5 ∧
    bcsrEntry (pmatApplyBCs 0 1 1 [(0, [0])] c4A []).1 0 0 ≠ idBlk := by
  have h5 : bcsrEntry (pmatApplyBCs 0 1 1 [(0, [0])] c4A []).1 0 0 1 0 = 5 := by
    norm_num [pmatApplyBCs, applyBCsStep, zeroRowB, zeroBlkVars, bcsrEntry,
      c4A, blkListSum_apply]
  refine ⟨h5, fun h => ?_⟩
  rw [h] at h5
  norm_num [idBlk] at h5

/-- Witness for C4 (amended) at a concrete instance (`lo = 0`, `hi = 1`,
`Np = 0`, one interface row in both `A` and `B`). -/
theorem applyBCs_constrained_rows_witness :
    IdScalarRow (pmatApplyBCs 0 1 0 [(0, [0])] c4A c1Bext).1 0 0 ∧
    ((0 : ℕ) ≤ 0 →
      ZeroScalarRow (pmatApplyBCs 0 1 0 [(0, [0])] c4A c1Bext).2 0 0) := by
  have h := applyBCs_constrained_rows 0 1 0 [(0, [0])] c4A c1Bext
    (by unfold AWf colsMap c4A; decide) (by decide) (0, [0]) (by decide)
    (by decide) (by decide) 0 (by decide)
  simpa using h

section PartialSolveHelpers

theorem getD_set_vec (l : List Vec2) (i : ℕ) (a : Vec2) (j : ℕ) :
    (l.set i a).getD j 0 = if i = j ∧ j < l.length then a else l.getD j 0 := by
  by_cases hj : j < l.length
  · rw [List.getD_eq_getElem _ _ (by simpa using hj), List.getElem_set]
    by_cases hij : i = j
    · simp [hij, hj]
    · rw [List.getD_eq_getElem _ _ hj]
      simp [hij]
  · have h1 : l.length ≤ j := le_of_not_lt hj
    rw [List.getD_eq_default _ _ (by simpa using h1), List.getD_eq_default _ _ h1]
    simp [hj]

theorem foldl_addF_eq (F : ℕ × Blk → Vec2) (row : BCSRRow) (y0 : Vec2) :
    row.foldl (fun y e => y + F e) y0 = y0 + (row.map F).sum := by
  induction row generalizing y0 with
  | nil => simp
  | cons e t ih =>
      simp only [List.foldl_cons, List.map_cons, List.sum_cons]
      rw [ih]
      abel

/-- A conditional sparse-row accumulation, grouped by column over any
finite set matching the condition on the row's stored columns. -/
theorem rowAccumCond_eq_sum (z : ℕ → Vec2) (row : BCSRRow) (S : Finset ℕ)
    (P : ℕ → Prop) [DecidablePred P] (hP : ∀ e ∈ row, P e.1 ↔ e.1 ∈ S) :
    row.foldl (fun acc e => if P e.1 then acc + blkVec e.2 (z e.1) else acc) 0 =
      ∑ c ∈ S, blkVec (((row.filter (fun e => e.1 = c)).map Prod.snd).sum)
        (z c) := by
  induction row with
  | nil =>
      simp [Blk.blkVec_zero]
  | cons e t ih =>
      have he : P e.1 ↔ e.1 ∈ S := hP e (List.mem_cons_self e t)
      have ht : ∀ e' ∈ t, P e'.1 ↔ e'.1 ∈ S :=
        fun e' h => hP e' (List.mem_cons_of_mem e h)
      have hfn : (fun (acc : Vec2) (e : ℕ × Blk) =>
          if P e.1 then acc + blkVec e.2 (z e.1) else acc) =
          (fun acc e => acc + if P e.1 then blkVec e.2 (z e.1) else 0) := by
        funext acc e
        by_cases h : P e.1 <;> simp [h]
      rw [hfn] at ih ⊢
      rw [List.foldl_cons, foldl_addF_eq, zero_add]
      have ih' := ih ht
      rw [foldl_addF_eq, zero_add] at ih'
      rw [ih']
      have hsplit : ∀ c ∈ S,
          blkVec ((((e :: t).filter (fun e => e.1 = c)).map Prod.snd).sum)
            (z c) =
          (if e.1 = c then blkVec e.2 (z c) else 0) +
          blkVec (((t.filter (fun e => e.1 = c)).map Prod.snd).sum) (z c) := by
        intro c _
        by_cases hc : e.1 = c
        · simp [List.filter_cons, hc, Blk.blkVec_add]
        · simp [List.filter_cons, hc]
      rw [Finset.sum_congr rfl hsplit, Finset.sum_add_distrib]
      have hfirst : ∑ c ∈ S, (if e.1 = c then blkVec e.2 (z c) else 0) =
          if P e.1 then blkVec e.2 (z e.1) else 0 := by
        rw [Finset.sum_ite_eq S e.1 (fun c => blkVec e.2 (z c))]
        by_cases hmem : e.1 ∈ S
        · simp [hmem, he.mpr hmem]
        · have hnp : ¬ P e.1 := fun h => hmem (he.mp h)
          simp [hmem, hnp]
      rw [hfirst]

end PartialSolveHelpers

section PartialLowerSpec

theorem plStep_length (m : BCSR) (voff i : ℕ) (x : List Vec2) :
    (plStep m voff i x).length = x.length := by
  simp [plStep]

theorem plLoop_length (m : BCSR) (voff k : ℕ) (x : List Vec2) :
    (plLoop m voff k x).length = x.length := by
  induction k with
  | zero => rfl
  | succ k ih => rw [plLoop, plStep_length, ih]

theorem plStep_getD_ne (m : BCSR) (voff i : ℕ) (x : List Vec2) (r : ℕ)
    (hr : r ≠ i - voff) :
    (plStep m voff i x).getD r 0 = x.getD r 0 := by
  simp only [plStep]
  rw [getD_set_vec]
  exact if_neg (fun h => hr h.1.symm)

theorem plLoop_stable (m : BCSR) (voff k : ℕ) (x : List Vec2) (r : ℕ)
    (hr : r = 0 ∨ k < r) :
    (plLoop m voff k x).getD r 0 = x.getD r 0 := by
  induction k with
  | zero => rfl
  | succ k ih =>
      have hne : r ≠ voff + k + 1 - voff := by omega
      rw [plLoop, plStep_getD_ne _ _ _ _ _ hne]
      exact ih (by omega)

/-- Forward-substitution characterization of the partial lower solve: each
processed entry of the output satisfies the unit-lower-triangular equation
`y[r] = x[r] - sum over Schur columns below the diagonal of L[r][c]·y[c]`,
with the *final* output values on the right-hand side. -/
theorem plLoop_eq (m : BCSR) (voff : ℕ) (x : List Vec2) (k : ℕ)
    (hk : k ≤ m.length - (voff + 1)) (hxlen : x.length = m.length - voff) :
    ∀ r, 1 ≤ r → r ≤ k →
      (plLoop m voff k x).getD r 0 = x.getD r 0 -
        ∑ c ∈ Finset.Ico voff (voff + r),
          blkVec (bcsrEntry m (voff + r) c)
            ((plLoop m voff k x).getD (c - voff) 0) := by
  induction k with
  | zero =>
      intro r h1 h2
      omega
  | succ k ih =>
      intro r h1 h2
      by_cases hrk : r ≤ k
      · -- rows processed by the earlier iterations are untouched
        have hne : r ≠ voff + k + 1 - voff := by omega
        rw [plLoop, plStep_getD_ne _ _ _ _ _ hne,
          ih (by omega) r h1 hrk]
        refine congrArg (fun s => x.getD r 0 - s)
          (Finset.sum_congr rfl (fun c hc => ?_))
        have hc' := Finset.mem_Ico.mp hc
        have hcne : c - voff ≠ voff + k + 1 - voff := by omega
        rw [plStep_getD_ne _ _ _ _ _ hcne]
      · -- the new row `r = k+1`
        have hr : r = k + 1 := by omega
        subst hr
        have hklen : k + 1 < x.length := by omega
        have hyk : (plLoop m voff k x).length = x.length := plLoop_length _ _ _ _
        rw [plLoop]
        have hset : (plStep m voff (voff + k + 1) (plLoop m voff k x)).getD
            (k + 1) 0 =
            (plLoop m voff k x).getD (k + 1) 0 -
            (m.getD (voff + k + 1) []).foldl
              (fun acc e =>
                if voff ≤ e.1 ∧ e.1 < voff + k + 1 then
                  acc + blkVec e.2 ((plLoop m voff k x).getD (e.1 - voff) 0)
                else acc) 0 := by
          rw [plStep, getD_set_vec]
          have : voff + k + 1 - voff = k + 1 := by omega
          simp [this, hyk, hklen]
        rw [hset, plLoop_stable m voff k x (k + 1) (Or.inr (by omega))]
        have hsum := rowAccumCond_eq_sum
          (fun c => (plLoop m voff k x).getD (c - voff) 0)
          (m.getD (voff + k + 1) []) (Finset.Ico voff (voff + k + 1))
          (fun c => voff ≤ c ∧ c < voff + k + 1)
          (fun e _ => by rw [Finset.mem_Ico])
        rw [hsum]
        refine congrArg (fun s => x.getD (k + 1) 0 - s)
          (Finset.sum_congr rfl (fun c hc => ?_))
        have hc' := Finset.mem_Ico.mp hc
        have hcne : c - voff ≠ voff + k + 1 - voff := by omega
        rw [plStep_getD_ne _ _ _ _ _ hcne]
        rfl

/-- `BCSRMatApplyPartialLower2` computes the solution of the
unit-lower-triangular Schur system: entry `0` of the slice is untouched
and every later entry satisfies the forward-substitution equation in
terms of the dense entries of the factor. -/
theorem bcsrApplyPartialLower_spec (m : BCSR) (voff : ℕ) (x : List Vec2)
    (hxlen : x.length = m.length - voff) :
    (bcsrApplyPartialLower m voff x).length = x.length ∧
    (bcsrApplyPartialLower m voff x).getD 0 0 = x.getD 0 0 ∧
    ∀ r, 1 ≤ r → r < m.length - voff →
      (bcsrApplyPartialLower m voff x).getD r 0 = x.getD r 0 -
        ∑ c ∈ Finset.Ico voff (voff + r),
          blkVec (bcsrEntry m (voff + r) c)
            ((bcsrApplyPartialLower m voff x).getD (c - voff) 0) := by
  refine ⟨plLoop_length _ _ _ _, plLoop_stable _ _ _ _ _ (Or.inl rfl), ?_⟩
  intro r h1 h2
  exact plLoop_eq m voff x (m.length - (voff + 1)) (by omega) hxlen r h1
    (by omega)

end PartialLowerSpec

section PartialUpperSpec

theorem puStep_length (m : BCSR) (voff i : ℕ) (x : List Vec2) :
    (puStep m voff i x).length = x.length := by
  simp [puStep]

theorem puLoop_length (m : BCSR) (voff k : ℕ) (x : List Vec2) :
    (puLoop m voff k x).length = x.length := by
  induction k with
  | zero => rfl
  | succ k ih => rw [puLoop, puStep_length, ih]

theorem puStep_getD_ne (m : BCSR) (voff i : ℕ) (x : List Vec2) (r : ℕ)
    (hr : r ≠ i - voff) :
    (puStep m voff i x).getD r 0 = x.getD r 0 := by
  simp only [puStep]
  rw [getD_set_vec]
  exact if_neg (fun h => hr h.1.symm)

theorem puLoop_stable (m : BCSR) (voff k : ℕ) (x : List Vec2) (r : ℕ)
    (hr : voff + r < m.length - k) :
    (puLoop m voff k x).getD r 0 = x.getD r 0 := by
  induction k with
  | zero => rfl
  | succ k ih =>
      have hne : r ≠ m.length - (k + 1) - voff := by omega
      rw [puLoop, puStep_getD_ne _ _ _ _ _ hne]
      exact ih (by omega)

/-- Backward-substitution characterization of the partial upper solve: each
processed entry satisfies `y[r] = Dinv[r] * (x[r] - sum over Schur columns
above the diagonal of U[r][c]·y[c])`, with the stored (inverted) diagonal
block and the final output values on the right-hand side. -/
theorem puLoop_eq (m : BCSR) (voff : ℕ) (x : List Vec2) (k : ℕ)
    (hk : k ≤ m.length - voff) (hxlen : x.length = m.length - voff)
    (hcols : ∀ row ∈ m, ∀ e ∈ row, e.1 < m.length) :
    ∀ r, m.length - k ≤ voff + r → voff + r < m.length →
      (puLoop m voff k x).getD r 0 =
        blkVec (bcsrEntry m (voff + r) (voff + r))
          (x.getD r 0 -
            ∑ c ∈ Finset.Ico (voff + r + 1) m.length,
              blkVec (bcsrEntry m (voff + r) c)
                ((puLoop m voff k x).getD (c - voff) 0)) := by
  induction k with
  | zero =>
      intro r h1 h2
      omega
  | succ k ih =>
      intro r h1 h2
      by_cases hrk : m.length - k ≤ voff + r
      · -- rows processed by the earlier (higher-row) iterations
        have hne : r ≠ m.length - (k + 1) - voff := by omega
        rw [puLoop, puStep_getD_ne _ _ _ _ _ hne, ih (by omega) r hrk h2]
        refine congrArg (blkVec (bcsrEntry m (voff + r) (voff + r)))
          (congrArg (fun s => x.getD r 0 - s)
            (Finset.sum_congr rfl (fun c hc => ?_)))
        have hc' := Finset.mem_Ico.mp hc
        have hcne : c - voff ≠ m.length - (k + 1) - voff := by omega
        rw [puStep_getD_ne _ _ _ _ _ hcne]
      · -- the newly processed row `voff + r = m.length - (k+1)`
        have hi : voff + r = m.length - (k + 1) := by omega
        have hridx : r = m.length - (k + 1) - voff := by omega
        have hyk : (puLoop m voff k x).length = x.length :=
          puLoop_length _ _ _ _
        have hrlen : r < x.length := by omega
        rw [puLoop]
        have hrow : ∀ e ∈ m.getD (m.length - (k + 1)) [],
            (m.length - (k + 1) < e.1 ↔
              e.1 ∈ Finset.Ico (m.length - (k + 1) + 1) m.length) := by
          intro e he
          have hmem : m.getD (m.length - (k + 1)) [] ∈ m := by
            have hlt : m.length - (k + 1) < m.length := by omega
            rw [List.getD_eq_getElem _ _ hlt]
            exact List.getElem_mem hlt
          have := hcols _ hmem e he
          rw [Finset.mem_Ico]
          omega
        have hset : (puStep m voff (m.length - (k + 1))
              (puLoop m voff k x)).getD r 0 =
            blkVec (bcsrEntry m (m.length - (k + 1)) (m.length - (k + 1)))
              ((puLoop m voff k x).getD r 0 -
                (m.getD (m.length - (k + 1)) []).foldl
                  (fun acc e =>
                    if m.length - (k + 1) < e.1 then
                      acc + blkVec e.2
                        ((puLoop m voff k x).getD (e.1 - voff) 0)
                    else acc) 0) := by
          simp only [puStep]
          rw [getD_set_vec]
          rw [if_pos ⟨hridx.symm, by omega⟩, hridx]
        rw [hset, puLoop_stable m voff k x r (by omega)]
        have hsum := rowAccumCond_eq_sum
          (fun c => (puLoop m voff k x).getD (c - voff) 0)
          (m.getD (m.length - (k + 1)) [])
          (Finset.Ico (m.length - (k + 1) + 1) m.length)
          (fun c => m.length - (k + 1) < c) hrow
        rw [hsum]
        rw [show voff + r = m.length - (k + 1) from hi]
        refine congrArg (blkVec (bcsrEntry m (m.length - (k + 1))
            (m.length - (k + 1))))
          (congrArg (fun s => x.getD r 0 - s)
            (Finset.sum_congr rfl (fun c hc => ?_)))
        have hc' := Finset.mem_Ico.mp hc
        have hcne : c - voff ≠ m.length - (k + 1) - voff := by omega
        rw [puStep_getD_ne _ _ _ _ _ hcne]
        rfl

/-- `BCSRMatApplyPartialUpper2` computes the solution of the
upper-triangular Schur system with stored inverted diagonal blocks. -/
theorem bcsrApplyPartialUpper_spec (m : BCSR) (voff : ℕ) (x : List Vec2)
    (hxlen : x.length = m.length - voff)
    (hcols : ∀ row ∈ m, ∀ e ∈ row, e.1 < m.length) :
    (bcsrApplyPartialUpper m voff x).length = x.length ∧
    ∀ r, r < m.length - voff →
      (bcsrApplyPartialUpper m voff x).getD r 0 =
        blkVec (bcsrEntry m (voff + r) (voff + r))
          (x.getD r 0 -
            ∑ c ∈ Finset.Ico (voff + r + 1) m.length,
              blkVec (bcsrEntry m (voff + r) c)
                ((bcsrApplyPartialUpper m voff x).getD (c - voff) 0)) := by
  refine ⟨puLoop_length _ _ _ _, ?_⟩
  intro r hr
  exact puLoop_eq m voff x (m.length - voff) (by omega) hxlen hcols r
    (by omega) (by omega)

end PartialUpperSpec

theorem getD_zipWith_add (l1 l2 : List Vec2) (i : ℕ)
    (h1 : i < l1.length) (h2 : i < l2.length) :
    (List.zipWith (fun a b => a + b) l1 l2).getD i 0 =
      l1.getD i 0 + l2.getD i 0 := by
  have hlen : i < (List.zipWith (fun (a b : Vec2) => a + b) l1 l2).length := by
    rw [List.length_zipWith]
    exact lt_min h1 h2
  rw [List.getD_eq_getElem _ _ hlen, List.getD_eq_getElem _ _ h1,
    List.getD_eq_getElem _ _ h2, List.getElem_zipWith]

/-- Modelled from the spec (the `TACSBVecDistribute` halo is external to
this repository): the forward exchange fills the contiguous external
buffer with the values of the foreign interface block IDs, read from the
source vector at their local block positions. -/
def haloGather (idx : List ℕ) (src : ℕ → Vec2) : List Vec2 :=
  idx.map src

/-- The interface vector `v` read as if positioned at block offset `Np`
within a full-length local vector, as the spec describes the source
argument `&x[varoffset]` of the halo call in `GlobalSchurMat::mult`. -/
def vEmbedded (Np : ℕ) (v : List Vec2) : ℕ → Vec2 :=
  fun i => if Np ≤ i then v.getD (i - Np) 0 else 0

/-- `GlobalSchurMat::mult(x, y)`: halo-exchange the interface values, set
`y := Bext * x_ext`, apply the partial lower then the partial upper solve
of the factored `Apc` below the split `varoffset = N - Nc`, and finish
with `yvec->axpy(1.0, xvec)`. -/
def globalSchurMult (Apc Bext : BCSR) (voff : ℕ) (idx : List ℕ)
    (v : List Vec2) : List Vec2 :=
  let xext := haloGather idx (vEmbedded voff v)
  let w0 := bcsrMult Bext xext
  let w1 := bcsrApplyPartialLower Apc voff w0
  let w2 := bcsrApplyPartialUpper Apc voff w1
  List.zipWith (fun a b => a + b) w2 v

/-- C2: `GlobalSchurMat::mult` computes `(I + U_s⁻¹ L_s⁻¹ B_ext) v`: the
halo reads `v` embedded at block offset `Np` (touching only the interface
slice), `w := B·x_ext` is formed, the partial forward solve produces the
unique solution of the unit-lower-triangular Schur system `L_s t = w`,
the partial backward solve produces the solution of the upper-triangular
system (with stored inverted diagonal blocks) `U_s u = t`, and the result
adds `v` entrywise. -/
theorem globalSchurMult_spec (Apc Bext : BCSR) (voff : ℕ) (idx : List ℕ)
    (v : List Vec2)
    (hNc : Bext.length = Apc.length - voff)
    (hv : v.length = Apc.length - voff)
    (hcolsA : ∀ row ∈ Apc, ∀ e ∈ row, e.1 < Apc.length)
    (hidx : ∀ i ∈ idx, voff ≤ i) :
    ∃ t u : List Vec2,
      haloGather idx (vEmbedded voff v) =
        idx.map (fun i => v.getD (i - voff) 0) ∧
      t = bcsrApplyPartialLower Apc voff
            (bcsrMult Bext (haloGather idx (vEmbedded voff v))) ∧
      u = bcsrApplyPartialUpper Apc voff t ∧
      t.getD 0 0 =
        (bcsrMult Bext (haloGather idx (vEmbedded voff v))).getD 0 0 ∧
      (∀ r, 1 ≤ r → r < Apc.length - voff →
        t.getD r 0 =
          (bcsrMult Bext (haloGather idx (vEmbedded voff v))).getD r 0 -
            ∑ c ∈ Finset.Ico voff (voff + r),
              blkVec (bcsrEntry Apc (voff + r) c) (t.getD (c - voff) 0)) ∧
      (∀ r, r < Apc.length - voff →
        u.getD r 0 =
          blkVec (bcsrEntry Apc (voff + r) (voff + r))
            (t.getD r 0 -
              ∑ c ∈ Finset.Ico (voff + r + 1) Apc.length,
                blkVec (bcsrEntry Apc (voff + r) c)
                  (u.getD (c - voff) 0))) ∧
      (∀ r, r < Apc.length - voff →
        (globalSchurMult Apc Bext voff idx v).getD r 0 =
          u.getD r 0 + v.getD r 0) := by
  have hw0len : (bcsrMult Bext (haloGather idx (vEmbedded voff v))).length =
      Apc.length - voff := by
    rw [bcsrMult, List.length_map, hNc]
  have hPL := bcsrApplyPartialLower_spec Apc voff
    (bcsrMult Bext (haloGather idx (vEmbedded voff v))) hw0len
  have htlen : (bcsrApplyPartialLower Apc voff
      (bcsrMult Bext (haloGather idx (vEmbedded voff v)))).length =
      Apc.length - voff := by
    rw [hPL.1, hw0len]
  have hPU := bcsrApplyPartialUpper_spec Apc voff
    (bcsrApplyPartialLower Apc voff
      (bcsrMult Bext (haloGather idx (vEmbedded voff v)))) htlen hcolsA
  refine ⟨_, _, ?_, rfl, rfl, hPL.2.1, hPL.2.2, hPU.2, ?_⟩
  · refine List.map_congr_left (fun i hi => ?_)
    simp [vEmbedded, hidx i hi]
  · intro r hr
    have hulen : (bcsrApplyPartialUpper Apc voff
        (bcsrApplyPartialLower Apc voff
          (bcsrMult Bext (haloGather idx (vEmbedded voff v))))).length =
        Apc.length - voff := by
      rw [hPU.1, htlen]
    rw [globalSchurMult, getD_zipWith_add _ _ _ (by omega) (by omega)]

/-- Witness for C2: a two-row factor with split `voff = 1`, one interface
row, one external column. -/
theorem globalSchurMult_spec_witness :
    ((([[(0, fun _ _ => 4)]] : BCSR).length =
        ([[(0, fun _ _ => 2), (1, fun _ _ => 1)],
          [(0, fun _ _ => 3), (1, fun _ _ => 5)]] : BCSR).length - 1) ∧
     ([(fun _ => 6 : Vec2)].length =
        ([[(0, fun _ _ => 2), (1, fun _ _ => 1)],
          [(0, fun _ _ => 3), (1, fun _ _ => 5)]] : BCSR).length - 1)) ∧
    (∃ t u : List Vec2,
      haloGather [1] (vEmbedded 1 [(fun _ => 6 : Vec2)]) =
        [1].map (fun i => [(fun _ => 6 : Vec2)].getD (i - 1) 0) ∧
      t = bcsrApplyPartialLower
            [[(0, fun _ _ => 2), (1, fun _ _ => 1)],
             [(0, fun _ _ => 3), (1, fun _ _ => 5)]] 1
            (bcsrMult [[(0, fun _ _ => 4)]]
              (haloGather [1] (vEmbedded 1 [(fun _ => 6 : Vec2)]))) ∧
      u = bcsrApplyPartialUpper
            [[(0, fun _ _ => 2), (1, fun _ _ => 1)],
             [(0, fun _ _ => 3), (1, fun _ _ => 5)]] 1 t ∧
      t.getD 0 0 =
        (bcsrMult [[(0, fun _ _ => 4)]]
          (haloGather [1] (vEmbedded 1 [(fun _ => 6 : Vec2)]))).getD 0 0 ∧
      (∀ r, 1 ≤ r → r < ([[(0, fun _ _ => 2), (1, fun _ _ => 1)],
          [(0, fun _ _ => 3), (1, fun _ _ => 5)]] : BCSR).length - 1 →
        t.getD r 0 =
          (bcsrMult [[(0, fun _ _ => 4)]]
            (haloGather [1] (vEmbedded 1 [(fun _ => 6 : Vec2)]))).getD r 0 -
            ∑ c ∈ Finset.Ico 1 (1 + r),
              blkVec (bcsrEntry [[(0, fun _ _ => 2), (1, fun _ _ => 1)],
                [(0, fun _ _ => 3), (1, fun _ _ => 5)]] (1 + r) c)
                (t.getD (c - 1) 0)) ∧
      (∀ r, r < ([[(0, fun _ _ => 2), (1, fun _ _ => 1)],
          [(0, fun _ _ => 3), (1, fun _ _ => 5)]] : BCSR).length - 1 →
        u.getD r 0 =
          blkVec (bcsrEntry [[(0, fun _ _ => 2), (1, fun _ _ => 1)],
              [(0, fun _ _ => 3), (1, fun _ _ => 5)]] (1 + r) (1 + r))
            (t.getD r 0 -
              ∑ c ∈ Finset.Ico (1 + r + 1)
                  ([[(0, fun _ _ => 2), (1, fun _ _ => 1)],
                    [(0, fun _ _ => 3), (1, fun _ _ => 5)]] : BCSR).length,
                blkVec (bcsrEntry [[(0, fun _ _ => 2), (1, fun _ _ => 1)],
                  [(0, fun _ _ => 3), (1, fun _ _ => 5)]] (1 + r) c)
                  (u.getD (c - 1) 0))) ∧
      (∀ r, r < ([[(0, fun _ _ => 2), (1, fun _ _ => 1)],
          [(0, fun _ _ => 3), (1, fun _ _ => 5)]] : BCSR).length - 1 →
        (globalSchurMult [[(0, fun _ _ => 2), (1, fun _ _ => 1)],
            [(0, fun _ _ => 3), (1, fun _ _ => 5)]] [[(0, fun _ _ => 4)]] 1
            [1] [(fun _ => 6 : Vec2)]).getD r 0 =
          u.getD r 0 + [(fun _ => 6 : Vec2)].getD r 0)) :=
  ⟨⟨by decide, by decide⟩,
    globalSchurMult_spec
      [[(0, fun _ _ => 2), (1, fun _ _ => 1)],
       [(0, fun _ _ => 3), (1, fun _ _ => 5)]]
      [[(0, fun _ _ => 4)]] 1 [1] [(fun _ => 6 : Vec2)]
      (by decide) (by decide) (by decide) (by decide)⟩

/-- `PMat::printNzPattern`, as the list of lines written to the file.  The
first `fprintf` emits the `VARIABLES` header line and the diagonal `ZONE`
line; each stored block of `Aloc` yields the line
`"<i + ownerRange[rank]> <cols[j] + ownerRange[rank]>"`; when `Bext` has
at least one stored entry (`browp[Nb] > 0`) the off-diagonal `ZONE` line
follows, then each stored block of `Bext` yields
`"<i + (N-Nc) + ownerRange[rank]> <col_vars[bcols[j]]>"`. -/
def printNzPattern (Aloc Bext : BCSR) (colVars : List ℕ)
    (lo Np rank : ℕ) : List String :=
  ["VARIABLES = \"i\", \"j\" ",
   "ZONE T = \"Diagonal block " ++ toString rank ++ "\""]
  ++ (Aloc.enum.map (fun p => p.2.map (fun e =>
        toString (p.1 + lo) ++ " " ++ toString (e.1 + lo)))).flatten
  ++ (if 0 < Bext.foldl (fun n row => n + row.length) 0 then
        ("ZONE T = \"Off-diagonal block " ++ toString rank ++ "\"")
        :: (Bext.enum.map (fun p => p.2.map (fun e =>
              toString (p.1 + Np + lo) ++ " " ++
                toString (colVars.getD e.1 0)))).flatten
      else [])

/-- The C9 instance: a 3-row `Aloc` storing blocks `(0,0), (1,0), (1,1),
(2,2)` and a 1-row `Bext` storing one block in interface row `0`. -/
def c9Aloc : BCSR :=
  [[(0, fun _ _ => 1)],
   [(0, fun _ _ => 1), (1, fun _ _ => 1)],
   [(2, fun _ _ => 1)]]

/-- C9 coupling block: exactly one stored block in interface row `0`. -/
def c9Bext : BCSR := [[(0, fun _ _ => 1)]]

/-- C9: on the concrete instance (`lo = 10`, `Np = 2`, rank `3`, halo index
map `[17]`), the dump is the header line, the diagonal zone with exactly
the four data lines at local indices plus `lo`, then the off-diagonal zone
with exactly one data line at row `0 + Np + lo = 12` and column
`col_vars[0] = 17`. -/
theorem printNzPattern_concrete :
    printNzPattern c9Aloc c9Bext [17] 10 2 3 =
      ["VARIABLES = \"i\", \"j\" ",
       "ZONE T = \"Diagonal block 3\"",
       "10 10",
       "11 10", "11 11",
       "12 12",
       "ZONE T = \"Off-diagonal block 3\"",
       "12 17"] := by
  rfl

namespace MatMult

theorem blkMul_zero_left (b : Blk) : blkMul 0 b = 0 := by
  funext r c
  simp [blkMul]

theorem blkMul_zero_right (a : Blk) : blkMul a 0 = 0 := by
  funext r c
  simp [blkMul]

theorem blkMul_add_left (a1 a2 b : Blk) :
    blkMul (a1 + a2) b = blkMul a1 b + blkMul a2 b := by
  funext r c
  simp [blkMul]
  ring

theorem blkSmul_one (x : Blk) : blkSmul 1 x = x := by
  funext r c
  simp [blkSmul]

theorem blkSmul_neg_one (x : Blk) : blkSmul (-1) x = -x := by
  funext r c
  simp [blkSmul]

theorem blkSmul_zero (alpha : ℚ) : blkSmul alpha 0 = 0 := by
  funext r c
  simp [blkSmul]

theorem blkSmul_finsetSum (alpha : ℚ) (s : Finset ℕ) (f : ℕ → Blk) :
    blkSmul alpha (∑ j ∈ s, f j) = ∑ j ∈ s, blkSmul alpha (f j) := by
  funext r c
  simp [blkSmul, Finset.sum_apply, Finset.mul_sum]

theorem neg_finsetSum (s : Finset ℕ) (f : ℕ → Blk) :
    -(∑ j ∈ s, f j) = ∑ j ∈ s, -(f j) := by
  simp

/-- The block of row `bs` stored at column `k` (summing duplicates). -/
def bRowEntry (bs : List (ℕ × Blk)) (k : ℕ) : Blk :=
  ((bs.filter (fun e => e.1 = k)).map Prod.snd).sum

theorem bRowEntry_nil (k : ℕ) : bRowEntry [] k = 0 := rfl

theorem bRowEntry_cons_ne (bk : ℕ) (bb : Blk) (bs : List (ℕ × Blk)) (k : ℕ)
    (h : bk ≠ k) : bRowEntry ((bk, bb) :: bs) k = bRowEntry bs k := by
  simp [bRowEntry, List.filter_cons, h]

theorem bRowEntry_cons_eq (bk : ℕ) (bb : Blk) (bs : List (ℕ × Blk)) :
    bRowEntry ((bk, bb) :: bs) bk = bb + bRowEntry bs bk := by
  simp [bRowEntry, List.filter_cons]

theorem bRowEntry_eq_zero (bs : List (ℕ × Blk)) (k : ℕ)
    (h : ∀ e ∈ bs, e.1 ≠ k) : bRowEntry bs k = 0 := by
  have : bs.filter (fun e => e.1 = k) = [] := by
    rw [List.filter_eq_nil_iff]
    intro e he
    simp [h e he]
  simp [bRowEntry, this]

/-- The forward column scan of `BCSRMatMatMultAdd2` for one stored block
`a` of `A` (one `jp` iteration): walk C's row (`cp`) past columns below
the current `bcols[kp]`, `break` when C's row is exhausted, add the update
`g b` into the block whose column matches `bcols[kp]`.  `g` is the
per-branch increment (`a*b`, `-(a*b)` or `alpha*(a*b)`). -/
def scanAdd (g : Blk → Blk) :
    List (ℕ × Blk) → List (ℕ × Blk) → List (ℕ × Blk)
  | _, [] => []
  | [], c :: cs => c :: cs
  | (bk, bb) :: bs, (ck, cb) :: cs =>
      if ck < bk then (ck, cb) :: scanAdd g ((bk, bb) :: bs) cs
      else if bk = ck then scanAdd g bs ((ck, cb + g bb) :: cs)
      else scanAdd g bs ((ck, cb) :: cs)
termination_by bs cs => bs.length + cs.length

/-- On rows whose stored columns are sorted ascending, the scan adds
`g (B-block at the C-column)` to every stored block of C's row and leaves
the columns unchanged; absent products contribute `g 0 = 0`. -/
theorem scanAdd_eq (g : Blk → Blk) (hg0 : g 0 = 0) :
    ∀ n (bs cs : List (ℕ × Blk)), bs.length + cs.length ≤ n →
      (bs.map Prod.fst).Pairwise (· < ·) →
      (cs.map Prod.fst).Pairwise (· < ·) →
      scanAdd g bs cs =
        cs.map (fun e => (e.1, e.2 + g (bRowEntry bs e.1))) := by
  intro n
  induction n with
  | zero =>
      intro bs cs hn _ _
      have hbs : bs = [] := by
        cases bs with
        | nil => rfl
        | cons b t => simp at hn
      have hcs : cs = [] := by
        cases cs with
        | nil => rfl
        | cons c t =>
            subst hbs
            simp at hn
      subst hbs
      subst hcs
      simp [scanAdd]
  | succ n ih =>
      intro bs cs hn hbs hcs
      cases cs with
      | nil =>
          cases bs with
          | nil => simp [scanAdd]
          | cons b bs' => simp [scanAdd]
      | cons c cs' =>
          cases bs with
          | nil =>
              simp [scanAdd, bRowEntry_nil, hg0]
          | cons b bs' =>
              obtain ⟨bk, bb⟩ := b
              obtain ⟨ck, cb⟩ := c
              simp only [List.map_cons, List.pairwise_cons] at hbs hcs
              by_cases h1 : ck < bk
              · -- advance over C's row: `bk` and everything after it in
                -- `bs` is larger than `ck`, so `ck` receives nothing
                simp only [scanAdd]
                rw [if_pos h1]
                have hrec := ih ((bk, bb) :: bs') cs' (by simp at hn ⊢; omega)
                  (by simp only [List.map_cons, List.pairwise_cons]
                      exact hbs) hcs.2
                rw [hrec]
                have hzero : bRowEntry ((bk, bb) :: bs') ck = 0 := by
                  refine bRowEntry_eq_zero _ _ (fun e he => ?_)
                  rcases List.mem_cons.mp he with h | h
                  · subst h
                    omega
                  · have := hbs.1 e.1 (List.mem_map_of_mem Prod.fst h)
                    omega
                rw [List.map_cons, hzero, hg0, add_zero]
              · by_cases h2 : bk = ck
                · -- matching column: accumulate into the head of C's row
                  subst h2
                  simp only [scanAdd, if_neg h1, if_true]
                  have hrec := ih bs' ((bk, cb + g bb) :: cs')
                    (by simp at hn ⊢; omega) hbs.2
                    (by simp only [List.map_cons, List.pairwise_cons]
                        exact hcs)
                  rw [hrec]
                  have hzero : bRowEntry bs' bk = 0 := by
                    refine bRowEntry_eq_zero _ _ (fun e he => ?_)
                    have := hbs.1 e.1 (List.mem_map_of_mem Prod.fst he)
                    omega
                  rw [List.map_cons]
                  rw [List.map_cons]
                  refine congrArg₂ List.cons ?_ ?_
                  · simp only [bRowEntry_cons_eq, hzero, add_zero]
                    rw [hg0, add_zero]
                  · refine List.map_congr_left (fun e he => ?_)
                    have hgt : bk < e.1 :=
                      hcs.1 e.1 (List.mem_map_of_mem Prod.fst he)
                    rw [bRowEntry_cons_ne _ _ _ _ (by omega)]
                · -- `bk < ck`: the product targets a column absent from C
                  have h3 : bk < ck := by omega
                  simp only [scanAdd]
                  rw [if_neg h1, if_neg h2]
                  have hrec := ih bs' ((ck, cb) :: cs')
                    (by simp at hn ⊢; omega) hbs.2
                    (by simp only [List.map_cons, List.pairwise_cons]
                        exact hcs)
                  rw [hrec]
                  refine List.map_congr_left (fun e he => ?_)
                  have : bk ≠ e.1 := by
                    rcases List.mem_cons.mp he with h | h
                    · subst h
                      omega
                    · have := hcs.1 e.1 (List.mem_map_of_mem Prod.fst h)
                      omega
                  rw [bRowEntry_cons_ne _ _ _ _ this]

end MatMult

namespace MatMult

theorem map_fst_update (l : List (ℕ × Blk)) (g : ℕ × Blk → Blk) :
    (l.map (fun e => (e.1, g e))).map Prod.fst = l.map Prod.fst := by
  rw [List.map_map]
  rfl

/-- `BCSRMatMatMultAdd2`, one row `i` of `A`/`C`: the `jp` loop over the
stored blocks of A's row, each block running the column scan of C's row
against B's row `acols[jp]`.  `upd a b` is the per-branch increment. -/
def matMultAddRow (upd : Blk → Blk → Blk) (B : BCSR) (arow : BCSRRow)
    (crow : List (ℕ × Blk)) : List (ℕ × Blk) :=
  arow.foldl (fun cr ae => scanAdd (fun b => upd ae.2 b) (B.getD ae.1 []) cr)
    crow

theorem matMultAddRow_eq (upd : Blk → Blk → Blk) (B : BCSR)
    (arow : BCSRRow) (crow : List (ℕ × Blk))
    (hB : ∀ row ∈ B, (row.map Prod.fst).Pairwise (· < ·))
    (hc : (crow.map Prod.fst).Pairwise (· < ·))
    (hzr : ∀ a, upd a 0 = 0) :
    matMultAddRow upd B arow crow =
      crow.map (fun e => (e.1, e.2 +
        (arow.map (fun ae =>
          upd ae.2 (bRowEntry (B.getD ae.1 []) e.1))).sum)) := by
  have hrowB : ∀ j, ((B.getD j []).map Prod.fst).Pairwise (· < ·) := by
    intro j
    by_cases hj : j < B.length
    · refine hB _ ?_
      rw [List.getD_eq_getElem _ _ hj]
      exact List.getElem_mem hj
    · rw [List.getD_eq_default _ _ (le_of_not_lt hj)]
      simp
  induction arow generalizing crow with
  | nil =>
      simp only [matMultAddRow, List.foldl_nil, List.map_nil, List.sum_nil,
        add_zero]
      rw [show (fun (e : ℕ × Blk) => (e.1, e.2)) = id from rfl]
      rw [List.map_id]
  | cons ae arow' ih =>
      simp only [matMultAddRow, List.foldl_cons] at *
      have hscan := scanAdd_eq (fun b => upd ae.2 b) (hzr ae.2)
        ((B.getD ae.1 []).length + crow.length) (B.getD ae.1 []) crow
        le_rfl (hrowB ae.1) hc
      rw [hscan]
      have hc' : ((crow.map (fun e =>
          (e.1, e.2 + upd ae.2 (bRowEntry (B.getD ae.1 []) e.1)))).map
            Prod.fst).Pairwise (· < ·) := by
        rw [map_fst_update]
        exact hc
      rw [ih _ hc', List.map_map]
      refine List.map_congr_left (fun e _ => ?_)
      simp [add_assoc]

/-- The dense increment received by column `k` of row `i`, regrouped over
the column space of `B`. -/
theorem incr_eq_dense (upd : Blk → Blk → Blk) (B : BCSR) (arow : BCSRRow)
    (k n : ℕ) (hcols : ∀ e ∈ arow, e.1 < n)
    (hadd : ∀ a1 a2 b, upd (a1 + a2) b = upd a1 b + upd a2 b)
    (hzl : ∀ b, upd 0 b = 0) :
    (arow.map (fun ae => upd ae.2 (bRowEntry (B.getD ae.1 []) k))).sum =
      ∑ j ∈ Finset.range n,
        upd (bRowEntry arow j) (bRowEntry (B.getD j []) k) := by
  induction arow with
  | nil =>
      rw [List.map_nil, List.sum_nil]
      refine (Finset.sum_eq_zero (fun j _ => ?_)).symm
      rw [bRowEntry_nil, hzl]
  | cons ae t ih =>
      obtain ⟨a1, a2⟩ := ae
      have hae : a1 < n := hcols (a1, a2) (List.mem_cons_self _ t)
      have ht : ∀ e ∈ t, e.1 < n :=
        fun e h => hcols e (List.mem_cons_of_mem (a1, a2) h)
      rw [List.map_cons, List.sum_cons, ih ht]
      have hsplit : ∀ j ∈ Finset.range n,
          upd (bRowEntry ((a1, a2) :: t) j) (bRowEntry (B.getD j []) k) =
            (if a1 = j then upd a2 (bRowEntry (B.getD j []) k) else 0) +
            upd (bRowEntry t j) (bRowEntry (B.getD j []) k) := by
        intro j _
        by_cases hj : a1 = j
        · subst hj
          rw [bRowEntry_cons_eq, hadd]
          simp
        · rw [bRowEntry_cons_ne _ _ _ _ hj]
          simp [hj]
      rw [Finset.sum_congr rfl hsplit, Finset.sum_add_distrib]
      have hfirst : (∑ j ∈ Finset.range n,
          if a1 = j then upd a2 (bRowEntry (B.getD j []) k) else 0) =
          upd a2 (bRowEntry (B.getD a1 []) k) := by
        rw [Finset.sum_ite_eq (Finset.range n) a1]
        simp [Finset.mem_range.mpr hae]
      rw [hfirst]

/-- The row loop of `BCSRMatMatMultAdd2`: rows `0 ≤ i < nrows_a` of `C`
are updated against row `i` of `A`; rows of `C` beyond `A`'s are not
visited. -/
def matMultLoop (upd : Blk → Blk → Blk) (A B C : BCSR) : BCSR :=
  C.mapIdx (fun i crow =>
    if i < A.length then matMultAddRow upd B (A.getD i []) crow else crow)

theorem getD_mapIdx_row (f : ℕ → BCSRRow → BCSRRow) (l : BCSR) (i : ℕ) :
    (l.mapIdx f).getD i [] =
      if i < l.length then f i (l.getD i []) else [] := by
  by_cases h : i < l.length
  · rw [List.getD_eq_getElem _ _ (by simpa using h),
      List.getD_eq_getElem _ _ h, List.getElem_mapIdx]
    simp [h]
  · rw [List.getD_eq_default _ _ (by simpa using le_of_not_lt h)]
    simp [h]

end MatMult

namespace MatMult

/-- Row-level description of the whole loop: every row of the result is
the corresponding row of `C` with the dense masked increment added to
each stored block (rows not visited receive a zero increment). -/
theorem matMultLoop_row (upd : Blk → Blk → Blk) (A B C : BCSR)
    (hadd : ∀ a1 a2 b, upd (a1 + a2) b = upd a1 b + upd a2 b)
    (hzl : ∀ b, upd 0 b = 0) (hzr : ∀ a, upd a 0 = 0)
    (hAcols : ∀ row ∈ A, ∀ e ∈ row, e.1 < B.length)
    (hB : ∀ row ∈ B, (row.map Prod.fst).Pairwise (· < ·))
    (hC : ∀ row ∈ C, (row.map Prod.fst).Pairwise (· < ·))
    (hlen : A.length ≤ C.length) :
    ∀ i, (matMultLoop upd A B C).getD i [] =
      (C.getD i []).map (fun e => (e.1, e.2 +
        ∑ j ∈ Finset.range B.length,
          upd (bRowEntry (A.getD i []) j) (bRowEntry (B.getD j []) e.1))) := by
  intro i
  rw [matMultLoop, getD_mapIdx_row]
  by_cases hiC : i < C.length
  · have hrowC : (((C.getD i []).map Prod.fst)).Pairwise (· < ·) := by
      refine hC _ ?_
      rw [List.getD_eq_getElem _ _ hiC]
      exact List.getElem_mem hiC
    by_cases hiA : i < A.length
    · have hrowA : ∀ e ∈ A.getD i [], e.1 < B.length := by
        intro e he
        refine hAcols _ ?_ e he
        rw [List.getD_eq_getElem _ _ hiA]
        exact List.getElem_mem hiA
      rw [if_pos hiC, if_pos hiA,
        matMultAddRow_eq upd B _ _ hB hrowC hzr]
      refine List.map_congr_left (fun e _ => ?_)
      rw [incr_eq_dense upd B _ e.1 B.length hrowA hadd hzl]
    · rw [if_pos hiC, if_neg hiA]
      have hAempty : A.getD i [] = [] :=
        List.getD_eq_default _ _ (le_of_not_lt hiA)
      have hzero : ∀ k, (∑ j ∈ Finset.range B.length,
          upd (bRowEntry (A.getD i []) j) (bRowEntry (B.getD j []) k)) = 0 := by
        intro k
        refine Finset.sum_eq_zero (fun j _ => ?_)
        rw [hAempty, bRowEntry_nil, hzl]
      have : (fun (e : ℕ × Blk) => (e.1, e.2 +
          ∑ j ∈ Finset.range B.length,
            upd (bRowEntry (A.getD i []) j) (bRowEntry (B.getD j []) e.1))) =
          (fun e => e) := by
        funext e
        rw [hzero e.1, add_zero]
      rw [this, List.map_id']
  · rw [if_neg hiC]
    rw [List.getD_eq_default _ _ (le_of_not_lt hiC), List.map_nil]

/-- Entry-level description of the loop, masked to `C`'s pattern. -/
theorem matMultLoop_spec (upd : Blk → Blk → Blk) (A B C : BCSR)
    (hadd : ∀ a1 a2 b, upd (a1 + a2) b = upd a1 b + upd a2 b)
    (hzl : ∀ b, upd 0 b = 0) (hzr : ∀ a, upd a 0 = 0)
    (hAcols : ∀ row ∈ A, ∀ e ∈ row, e.1 < B.length)
    (hB : ∀ row ∈ B, (row.map Prod.fst).Pairwise (· < ·))
    (hC : ∀ row ∈ C, (row.map Prod.fst).Pairwise (· < ·))
    (hlen : A.length ≤ C.length) :
    bcsrPattern (matMultLoop upd A B C) = bcsrPattern C ∧
    ∀ i k, bcsrEntry (matMultLoop upd A B C) i k =
      bcsrEntry C i k +
        (if k ∈ colsMap C i then
          ∑ j ∈ Finset.range B.length,
            upd (bcsrEntry A i j) (bcsrEntry B j k)
        else 0) := by
  have hrow := matMultLoop_row upd A B C hadd hzl hzr hAcols hB hC hlen
  constructor
  · refine List.ext_getElem ?_ (fun i h1 h2 => ?_)
    · simp [bcsrPattern, matMultLoop]
    · have hlen1 : i < (matMultLoop upd A B C).length := by
        simpa [bcsrPattern] using h1
      have hlen2 : i < C.length := by
        simpa [bcsrPattern] using h2
      simp only [bcsrPattern, List.getElem_map]
      rw [← List.getD_eq_getElem (matMultLoop upd A B C) [] hlen1,
        ← List.getD_eq_getElem C [] hlen2, hrow i, map_fst_update]
  · intro i k
    rw [bcsrEntry, bcsrEntry, hrow i, filter_map_fst_preserving, List.map_map]
    by_cases hk : k ∈ colsMap C i
    · have hrowC : (((C.getD i []).map Prod.fst)).Pairwise (· < ·) := by
        by_cases hiC : i < C.length
        · refine hC _ ?_
          rw [List.getD_eq_getElem _ _ hiC]
          exact List.getElem_mem hiC
        · rw [List.getD_eq_default _ _ (le_of_not_lt hiC)]
          simp
      have hnd : (((C.getD i []).map Prod.fst)).Nodup :=
        hrowC.imp (fun h => Nat.ne_of_lt h)
      have hone := length_filter_eq_one (C.getD i []) k hnd hk
      obtain ⟨a, ha⟩ := List.length_eq_one.mp hone
      have hak : a.1 = k := by
        have : a ∈ (C.getD i []).filter (fun e => e.1 = k) := by
          rw [ha]
          exact List.mem_singleton_self a
        simpa using (List.of_mem_filter this)
      rw [ha, if_pos hk]
      simp only [List.map_cons, List.map_nil, List.sum_cons, List.sum_nil,
        add_zero, Function.comp]
      rw [hak]
      rfl
    · have hnone : (C.getD i []).filter (fun e => e.1 = k) = [] := by
        rw [List.filter_eq_nil_iff]
        intro e he hek
        exact hk (by
          have : e.1 = k := by simpa using hek
          rw [← this]
          exact List.mem_map_of_mem Prod.fst he)
      rw [hnone, if_neg hk]
      simp

end MatMult

/-- `BCSRMatMatMultAdd2(alpha, A, B, C)`: three specialized loops; the
`alpha == 1.0` branch adds `a*b`, the `alpha == -1.0` branch subtracts
`a*b`, the general branch adds `alpha*(a*b)`. -/
def bcsrMatMatMultAdd (alpha : ℚ) (A B C : BCSR) : BCSR :=
  if alpha = 1 then
    MatMult.matMultLoop (fun a b => blkMul a b) A B C
  else if alpha = -1 then
    MatMult.matMultLoop (fun a b => -(blkMul a b)) A B C
  else
    MatMult.matMultLoop (fun a b => blkSmul alpha (blkMul a b)) A B C

/-- C10: for sorted block-CSR operands, `BCSRMatMatMultAdd2` updates `C`
to `C + alpha*(A*B)` masked on `C`'s sparsity pattern: the pattern is
unchanged, every stored block `(i,k)` of `C` receives
`alpha * sum over j of A(i,j)*B(j,k)`, and a product targeting a position
not stored in `C` is silently discarded. -/
theorem bcsrMatMatMultAdd_spec (alpha : ℚ) (A B C : BCSR)
    (hAcols : ∀ row ∈ A, ∀ e ∈ row, e.1 < B.length)
    (hB : ∀ row ∈ B, (row.map Prod.fst).Pairwise (· < ·))
    (hC : ∀ row ∈ C, (row.map Prod.fst).Pairwise (· < ·))
    (hlen : A.length ≤ C.length) :
    bcsrPattern (bcsrMatMatMultAdd alpha A B C) = bcsrPattern C ∧
    ∀ i k, bcsrEntry (bcsrMatMatMultAdd alpha A B C) i k =
      bcsrEntry C i k +
        (if k ∈ colsMap C i then
          blkSmul alpha (∑ j ∈ Finset.range B.length,
            blkMul (bcsrEntry A i j) (bcsrEntry B j k))
        else 0) := by
  unfold bcsrMatMatMultAdd
  by_cases h1 : alpha = 1
  · subst h1
    rw [if_pos rfl]
    have h := MatMult.matMultLoop_spec (fun a b => blkMul a b) A B C
      (fun a1 a2 b => MatMult.blkMul_add_left a1 a2 b)
      (fun b => MatMult.blkMul_zero_left b)
      (fun a => MatMult.blkMul_zero_right a) hAcols hB hC hlen
    refine ⟨h.1, fun i k => ?_⟩
    rw [h.2 i k, MatMult.blkSmul_one]
  · rw [if_neg h1]
    by_cases h2 : alpha = -1
    · subst h2
      rw [if_pos rfl]
      have h := MatMult.matMultLoop_spec (fun a b => -(blkMul a b)) A B C
        (fun a1 a2 b => by
          show -(blkMul (a1 + a2) b) = -(blkMul a1 b) + -(blkMul a2 b)
          rw [MatMult.blkMul_add_left]
          abel)
        (fun b => by
          show -(blkMul 0 b) = 0
          rw [MatMult.blkMul_zero_left]
          simp)
        (fun a => by
          show -(blkMul a 0) = 0
          rw [MatMult.blkMul_zero_right]
          simp) hAcols hB hC hlen
      refine ⟨h.1, fun i k => ?_⟩
      rw [h.2 i k, MatMult.blkSmul_neg_one, MatMult.neg_finsetSum]
    · rw [if_neg h2]
      have h := MatMult.matMultLoop_spec
        (fun a b => blkSmul alpha (blkMul a b)) A B C
        (fun a1 a2 b => by
          show blkSmul alpha (blkMul (a1 + a2) b) =
            blkSmul alpha (blkMul a1 b) + blkSmul alpha (blkMul a2 b)
          rw [MatMult.blkMul_add_left]
          funext r c
          simp [blkSmul]
          ring)
        (fun b => by
          show blkSmul alpha (blkMul 0 b) = 0
          rw [MatMult.blkMul_zero_left, MatMult.blkSmul_zero])
        (fun a => by
          show blkSmul alpha (blkMul a 0) = 0
          rw [MatMult.blkMul_zero_right, MatMult.blkSmul_zero])
        hAcols hB hC hlen
      refine ⟨h.1, fun i k => ?_⟩
      rw [h.2 i k, MatMult.blkSmul_finsetSum]

/-- Witness for C10: `A` with one block, `B` with two, `C` storing only
column `1` of row `0`, so the product into `(0,0)` is discarded while
`(0,1)` receives `alpha*A(0,0)*B(0,1)`. -/
theorem bcsrMatMatMultAdd_spec_witness :
    ((∀ row ∈ ([[(0, fun _ _ => 2)]] : BCSR), ∀ e ∈ row,
        e.1 < ([[(0, fun _ _ => 3), (1, fun _ _ => 5)]] : BCSR).length) ∧
     (∀ row ∈ ([[(0, fun _ _ => 3), (1, fun _ _ => 5)]] : BCSR),
        (row.map Prod.fst).Pairwise (· < ·)) ∧
     (∀ row ∈ ([[(1, fun _ _ => 7)]] : BCSR),
        (row.map Prod.fst).Pairwise (· < ·))) ∧
    (bcsrPattern (bcsrMatMatMultAdd 6 [[(0, fun _ _ => 2)]]
        [[(0, fun _ _ => 3), (1, fun _ _ => 5)]] [[(1, fun _ _ => 7)]]) =
      bcsrPattern [[(1, fun _ _ => 7)]] ∧
     ∀ i k, bcsrEntry (bcsrMatMatMultAdd 6 [[(0, fun _ _ => 2)]]
        [[(0, fun _ _ => 3), (1, fun _ _ => 5)]] [[(1, fun _ _ => 7)]]) i k =
      bcsrEntry [[(1, fun _ _ => 7)]] i k +
        (if k ∈ colsMap [[(1, fun _ _ => 7)]] i then
          blkSmul 6 (∑ j ∈ Finset.range
              ([[(0, fun _ _ => 3), (1, fun _ _ => 5)]] : BCSR).length,
            blkMul (bcsrEntry [[(0, fun _ _ => 2)]] i j)
              (bcsrEntry [[(0, fun _ _ => 3), (1, fun _ _ => 5)]] j k))
        else 0)) :=
  ⟨⟨by decide, by decide, by decide⟩,
    bcsrMatMatMultAdd_spec 6 [[(0, fun _ _ => 2)]]
      [[(0, fun _ _ => 3), (1, fun _ _ => 5)]] [[(1, fun _ _ => 7)]]
      (by decide) (by decide) (by decide) (by decide)⟩
